import Mathlib

/-!
Verification of the `mine311` minesweeper engine and solver pipeline.

The definitions below are a shallow embedding of `src/minesweeper.py`
(game engine) and `src/solvers.py` (solver strategies).  Cells are pairs
of integers `(row, column)` exactly as in the Python code; mutable
two-dimensional boards (`board`, `vboard`) are embedded as functions
`ℤ × ℤ → ℤ` with pointwise update.  Python `set`s of cells are embedded
as duplicate-free lists with set operations (`sadd` is `set.add`,
`List.erase` is `set.remove`, `seq` is `==` on sets); this keeps every
definition executable by kernel reduction.  The recursive flood fill
`reveal` is embedded with an explicit fuel parameter; running out of
fuel (which never happens for the fuel used by `click`, see
`reveal_some`) and the Python `RuntimeError` path are both modelled by
`Option.none`.
-/

namespace Mine311

/-- A board cell: `(row, column)`, mirroring Python `tuple[int, int]` and
the `Cell` named tuple of `src/solvers.py` (value equality). -/
abbrev Cell := ℤ × ℤ

/-- In-bounds test `0 <= i < height and 0 <= j < width`, as used by
`nearby_mines`, `reveal` and `get_neighbors_box`. -/
def inb (h w : ℕ) (c : Cell) : Bool :=
  decide (0 ≤ c.1 ∧ c.1 < (h : ℤ) ∧ 0 ≤ c.2 ∧ c.2 < (w : ℤ))

/-- `set.add`: add an element unless already present (Python sets hold
each element once). -/
def sadd (l : List Cell) (c : Cell) : List Cell :=
  if c ∈ l then l else c :: l

/-- Python `==` on sets: extensional equality of the two lists. -/
def seq (a b : List Cell) : Bool :=
  a.all (fun c => decide (c ∈ b)) && b.all (fun c => decide (c ∈ a))

/-- The eight neighbor offsets produced by the double loop
`for dx in (-1,0,1): for dy in (-1,0,1):` skipping `(0,0)`,
in iteration order. -/
def offsets8 : List Cell :=
  [(-1, -1), (-1, 0), (-1, 1), (0, -1), (0, 1), (1, -1), (1, 0), (1, 1)]

/-- `get_neighbors_box(cell, height, width)` from `src/solvers.py`
(also the neighborhood scanned by `nearby_mines` in
`src/minesweeper.py`): the in-bounds Moore neighbors, in loop order. -/
def neighborsBox (c : Cell) (h w : ℕ) : List Cell :=
  (offsets8.map (fun o => (c.1 + o.1, c.2 + o.2))).filter (fun d => inb h w d)

/-- All nine offsets of the 3×3 loops (center included), in iteration
order. -/
def offsets9 : List Cell :=
  [(-1, -1), (-1, 0), (-1, 1), (0, -1), (0, 0), (0, 1), (1, -1), (1, 0), (1, 1)]

/-- The full 3×3 block scanned by the cascade loop of
`MineSweeperGame.reveal` (it includes the center cell, which the code
skips only via the `revealed` membership test). -/
def block (c : Cell) : List Cell :=
  offsets9.map (fun o => (c.1 + o.1, c.2 + o.2))

/-- Row-major enumeration of the grid, `(0,0), (0,1), …`:
the scan order of `populate_board`, `shift_mine` and `get_cells`. -/
def gridList (h w : ℕ) : List Cell :=
  (List.range h).flatMap fun (i : ℕ) => (List.range w).map fun (j : ℕ) => ((i : ℤ), (j : ℤ))

/-- The grid as a finite set (used only in proofs, for cardinality
bookkeeping). -/
def gridF (h w : ℕ) : Finset Cell := (gridList h w).toFinset

/-- Pointwise update of a board function, modelling `board[i][j] = v`. -/
def updFn (f : Cell → ℤ) (c : Cell) (v : ℤ) : Cell → ℤ :=
  fun d => if d = c then v else f d

/-- `MineSweeperGame.nearby_mines(cell)`: number of in-bounds Moore
neighbors holding `-1`. -/
def nearby_mines (b : Cell → ℤ) (h w : ℕ) (c : Cell) : ℤ :=
  ((neighborsBox c h w).countP (fun d => decide (b d = -1)) : ℤ)

/-- `MineSweeperGame.populate_board()`: every in-bounds non-mine cell
gets its adjacency count.  The Python loop updates `board` in place, but
while it runs the set of cells holding `-1` never changes (counts are in
`0..8`), so the in-place loop computes exactly this function of the
original board. -/
def populate_board (h w : ℕ) (b : Cell → ℤ) : Cell → ℤ :=
  fun d => if inb h w d ∧ b d ≠ -1 then nearby_mines b h w d else b d

/-- State of `MineSweeperGame` (`src/minesweeper.py` lines 22-94). -/
structure Game where
  height : ℕ
  width : ℕ
  board : Cell → ℤ
  vboard : Cell → ℤ
  mines : List Cell
  flags : List Cell
  revealed : List Cell
  firstclick : Bool
  failed : Bool

namespace Game

/-- `MineSweeperGame.__init__`: the random mine placement is passed in
as the parameter `mines0` (the placement loop guarantees the cells are
distinct, on the grid, and `mine_count` many; those facts are the
`ValidInit` hypothesis of the theorems below). -/
def init (h w : ℕ) (mines0 : List Cell) : Game :=
  { height := h
    width := w
    board := populate_board h w (fun d => if d ∈ mines0 then -1 else 0)
    vboard := fun _ => -2
    mines := mines0
    flags := []
    revealed := []
    firstclick := true
    failed := false }

/-- What `__init__` guarantees about the random placement: distinct
cells, the configured count (constrained below the cell count), all on
the grid. -/
def ValidInit (h w mine_count : ℕ) (mines0 : List Cell) : Prop :=
  mines0.Nodup ∧ mines0.length = mine_count ∧ mine_count < h * w ∧
    ∀ c ∈ mines0, inb h w c = true

/-- The inner 3×3 cascade loop of `reveal`, abstracted over the
recursive call `f`: cells already revealed or out of bounds are
skipped, the rest are revealed (by `f`) in loop order. -/
def revealListAux (f : Game → Cell → Option Game) : Game → List Cell → Option Game
  | g, [] => some g
  | g, c :: cs =>
    if c ∈ g.revealed then revealListAux f g cs
    else if inb g.height g.width c then
      match f g c with
      | none => none
      | some g1 => revealListAux f g1 cs
    else revealListAux f g cs

/-- `MineSweeperGame.reveal` (lines 211-245) with explicit fuel.
`none` models either fuel exhaustion (never reached from `click`) or
the Python runtime error raised on revealing a mine. -/
def reveal : ℕ → Game → Cell → Option Game
  | 0, _, _ => none
  | fuel + 1, g, c =>
    let g1 : Game := { g with revealed := sadd g.revealed c }
    if g1.board c = -1 then none
    else if g1.board c = 0 then
      revealListAux (reveal fuel) { g1 with vboard := updFn g1.vboard c 0 } (block c)
    else some { g1 with vboard := updFn g1.vboard c (g1.board c) }

/-- The cascade loop at a given fuel level. -/
def revealList (fuel : ℕ) : Game → List Cell → Option Game :=
  revealListAux (reveal fuel)

/-- `MineSweeperGame.shift_mine(cell)` (lines 183-209): swap the mine at
`cell` with the first non-mine cell in row-major order, recompute the
counts, update the mine set.  `none` models the Python loop running off
the board when every cell is a mine (prevented by the constructor's
mine-count bound). -/
def shift_mine (g : Game) (c : Cell) : Option Game :=
  match (gridList g.height g.width).find? (fun d => !decide (g.board d = -1)) with
  | none => none
  | some swap =>
    let b1 := updFn (updFn g.board swap (-1)) c 0
    some { g with
            board := populate_board g.height g.width b1
            mines := sadd (g.mines.erase c) swap }

/-- Fuel used by `click` for the cascade; `reveal_some` below shows it
always suffices. -/
def clickFuel (g : Game) : ℕ := g.height * g.width + 2

/-- `MineSweeperGame.click(cell)` (lines 155-181). -/
def click (g : Game) (c : Cell) : Option Game :=
  let og1 : Option Game :=
    if g.firstclick then
      let g1 : Game := { g with firstclick := false }
      if g1.board c = -1 then shift_mine g1 c else some g1
    else some g
  match og1 with
  | none => none
  | some g2 =>
    if g2.board c = -1 then some { g2 with failed := true }
    else reveal (clickFuel g2) g2 c

/-- `MineSweeperGame.flag(cell)` (lines 247-260).  Note the over-flag
test reads the flag set *before* the new flag is added. -/
def flag (g : Game) (c : Cell) : Game :=
  { g with
    failed := if g.mines.length < g.flags.length then true else g.failed
    vboard := updFn g.vboard c (-3)
    flags := sadd g.flags c }

/-- `MineSweeperGame.outcome()` (lines 262-273); `some false` is `Lost`,
`some true` is `Won`, `none` is in-progress. -/
def outcome (g : Game) : Option Bool :=
  if g.failed then some false
  else if seq g.flags g.mines then some true
  else none

end Game

/-- `MAX_COMBS` from `src/solvers.py` line 10. -/
def MAX_COMBS : ℕ := 5000

/-- State shared by the `Solver` class hierarchy of `src/solvers.py`
(`Solver.__init__` lines 76-113 plus the `boards` cache added by
`EnumerationSolver.__init__`).  The `mines`, `flags`, `revealed` sets
also exist on the Python object; only `revealed` feeds the strategies
verified here (via `CspState` for the CSP solver), so the plain solver
state keeps the queues, flags and board. -/
structure SolverSt where
  height : ℕ
  width : ℕ
  mine_count : ℕ
  firstclick : Bool
  random : Bool
  to_click : List Cell
  to_flag : List Cell
  vboard : Cell → ℤ
  boards : List (Cell → ℤ)

namespace Solver

/-- `Solver.__init__` (note the Python code initializes the internal
`vboard` with zeros, despite the comment saying unknowns). -/
def initSt (h w mc : ℕ) : SolverSt :=
  { height := h, width := w, mine_count := mc, firstclick := true,
    random := false, to_click := [], to_flag := [],
    vboard := fun _ => 0, boards := [] }

/-- `Solver.get(cell)`. -/
def get (s : SolverSt) (c : Cell) : ℤ := s.vboard c

/-- The cell-status filter of `get_cells` / `get_neighbors`: positive
`status` selects positive values, otherwise exact equality. -/
def statusP (s : SolverSt) (status : ℤ) (c : Cell) : Bool :=
  if 0 < status then decide (0 < get s c) else decide (get s c = status)

/-- `Solver.get_cells(status)`: matching cells in row-major order. -/
def get_cells (s : SolverSt) (status : ℤ) : List Cell :=
  (gridList s.height s.width).filter (statusP s status)

/-- `Solver.get_neighbors(cell, status)`. -/
def get_neighbors (s : SolverSt) (c : Cell) (status : ℤ) : List Cell :=
  (neighborsBox c s.height s.width).filter (statusP s status)

/-- `Solver.revise_to_click()` (lines 115-124): keep only the queued
click targets still unknown on the current board. -/
def revise_to_click (s : SolverSt) : SolverSt :=
  { s with to_click := s.to_click.filter (fun c => decide (get s c = -2)) }

/-- One iteration of the `DeductionSolver.deduce` loop (lines 380-394)
for a numbered cell `c`. -/
def deduceStep (s : SolverSt) (c : Cell) : SolverSt :=
  let flagged := get_neighbors s c (-3)
  let unknowns := get_neighbors s c (-2)
  if (flagged.length : ℤ) = get s c then
    { s with to_click := s.to_click ++ unknowns }
  else if (flagged.length : ℤ) + (unknowns.length : ℤ) = get s c then
    { s with to_flag := s.to_flag ++ unknowns }
  else s

/-- `DeductionSolver.deduce()`: one pass over all numbered cells. -/
def deduce (s : SolverSt) : SolverSt :=
  (get_cells s 1).foldl deduceStep s

/-- `DeductionSolver.click(vboard)` (lines 352-378).  The returned pair
is the Python return value (`None` models the exception raised by
`random.choice` on an empty list); the state is the mutated `self`.
`choose` stands for `random.choice`; theorems about the random branch
assume only `choose l ∈ l`. -/
def clickD (s0 : SolverSt) (vb : Cell → ℤ) (choose : List Cell → Cell) :
    Option (Bool × Cell) × SolverSt :=
  let s := deduce { s0 with random := false, vboard := vb }
  let s := revise_to_click s
  let s := { s with firstclick := false }
  match s.to_click.getLast? with
  | some c => (some (true, c), { s with to_click := s.to_click.dropLast })
  | none =>
    match s.to_flag.getLast? with
    | some c => (some (false, c), { s with to_flag := s.to_flag.dropLast })
    | none =>
      match get_cells s (-2) with
      | [] => (none, s)
      | l => (some (true, choose l), { s with random := true })

/-- `itertools.combinations`, in its enumeration order. -/
def combinations : ℕ → List Cell → List (List Cell)
  | 0, _ => [[]]
  | _ + 1, [] => []
  | n + 1, x :: xs => (combinations n xs).map (fun t => x :: t) ++ combinations (n + 1) xs

/-- The board-generation step of `EnumerationSolver.enumerate_probs`
(lines 451-461): if the cache is empty, every placement of the
remaining mines on the unknown cells, merged with the flagged cells.
(`mines_left` is clamped at zero; a negative value would make the
Python code raise.) -/
def genBoards (s : SolverSt) : List (Cell → ℤ) :=
  if s.boards.isEmpty then
    let mines_left := ((s.mine_count : ℤ) - ((get_cells s (-3)).length : ℤ)).toNat
    (combinations mines_left (get_cells s (-2))).map (fun conf =>
      fun d => if d ∈ conf ∨ d ∈ get_cells s (-3) then -1 else 0)
  else s.boards

/-- The elimination step of `enumerate_probs` (lines 463-477): keep the
candidate boards whose mine counts match every numbered cell. -/
def surviving (s : SolverSt) : List (Cell → ℤ) :=
  (genBoards s).filter (fun b =>
    (get_cells s 1).all (fun c =>
      decide (((neighborsBox c s.height s.width).countP (fun d => decide (b d = -1)) : ℤ)
        = get s c)))

/-- `EnumerationSolver.enumerate_probs()` (lines 448-489): the contents
of the returned priority queue, in insertion order, and the updated
cache.  Note the Python loop increments its `mines` counter when the
candidate board holds `0` (no mine) at the cell. -/
def enumerate_probs (s : SolverSt) : List (ℚ × Cell) × SolverSt :=
  let bs := surviving s
  ((get_cells s (-2)).map (fun c =>
      (((bs.countP (fun b => decide (b c = 0))) : ℚ) / ((bs.length : ℚ)), c)),
    { s with boards := bs })

/-- Python tuple comparison on `(probability, cell)`, the order used by
the priority queue. -/
def pairLt (a b : ℚ × Cell) : Bool :=
  decide (a.1 < b.1) ||
    (decide (a.1 = b.1) &&
      (decide (a.2.1 < b.2.1) ||
        (decide (a.2.1 = b.2.1) && decide (a.2.2 < b.2.2))))

/-- `probs.get()` on the priority queue: the minimum entry. -/
def minEntry : List (ℚ × Cell) → Option (ℚ × Cell)
  | [] => none
  | x :: xs => some (xs.foldl (fun acc y => if pairLt y acc then y else acc) x)

/-- The cell picked by the enumeration branch of
`EnumerationSolver.click` (lines 438-440): `prob, cell = probs.get()`. -/
def enumChoice (s : SolverSt) : Option (ℚ × Cell) :=
  minEntry (enumerate_probs s).1

end Solver

/-- State of `CSPSolver` (`src/solvers.py` lines 597-607): the live
constraint store (insertion-ordered association list, matching Python
dict order: each entry is the source cell, its still-unknown neighbor
set, and its remaining mine count), the retired keys, the action
queues, and the board.  `newfreecells` is the set computed by `click`
from `revealed - oldfreecells`; the `revealed`/`oldfreecells` sets
themselves only feed that computation, which the reachability relation
models as the `setFrees` step. -/
structure CspState where
  height : ℕ
  width : ℕ
  constraints : List (Cell × List Cell × ℤ)
  deleted : List Cell
  to_click : List Cell
  to_flag : List Cell
  vboard : Cell → ℤ
  newfreecells : List Cell

namespace Csp

/-- Fresh store, per `CSPSolver.__init__` plus `Solver.__init__`. -/
def initSt (h w : ℕ) : CspState :=
  { height := h, width := w, constraints := [], deleted := [],
    to_click := [], to_flag := [], vboard := fun _ => 0, newfreecells := [] }

/-- Dictionary lookup `self.constraints[k]`. -/
def lookupC (cs : List (Cell × List Cell × ℤ)) (k : Cell) : Option (List Cell × ℤ) :=
  (cs.find? (fun e => decide (e.1 = k))).map (fun e => e.2)

/-- Dictionary removal `self.constraints.pop(k)`. -/
def popC (cs : List (Cell × List Cell × ℤ)) (k : Cell) : List (Cell × List Cell × ℤ) :=
  cs.filter (fun e => !decide (e.1 = k))

/-- `CSPSolver.addconstraints()` (lines 617-631): for every numbered
cell that is neither a live nor a retired key, record its unknown
neighbors and its number minus the count of flagged neighbors. -/
def addconstraints (s : CspState) : CspState :=
  (gridList s.height s.width).foldl (fun t d =>
    if 0 < t.vboard d ∧ lookupC t.constraints d = none ∧ d ∉ t.deleted then
      { t with constraints := t.constraints ++
          [(d, ((neighborsBox d t.height t.width).filter (fun e => decide (t.vboard e = -2)),
                t.vboard d -
                  (((neighborsBox d t.height t.width).filter
                      (fun e => decide (t.vboard e = -3))).length : ℤ)))] }
    else t) s

/-- `CSPSolver.pruneunknownneighs()` (lines 633-640): drop every newly
revealed cell from every constraint's unknown set. -/
def pruneunknownneighs (s : CspState) : CspState :=
  { s with constraints := s.constraints.map (fun e =>
      (e.1, (e.2.1.filter (fun u => !decide (u ∈ s.newfreecells)), e.2.2))) }

/-- The propagation performed for each certain mine `m` inside
`trivialflag` (lines 655-661): every other live constraint listing `m`
among its (non-empty) unknowns loses `m` and one remaining mine.  The
Python loop visits the constraint keys in `get_neighbors_box m`; a
constraint can only list `m` if its key is adjacent to `m`, so mapping
over all entries with the adjacency test is the same update. -/
def removeMineCs (h w : ℕ) (m : Cell) (cs : List (Cell × List Cell × ℤ)) :
    List (Cell × List Cell × ℤ) :=
  cs.map (fun e =>
    if decide (e.1 ∈ neighborsBox m h w) ∧ e.2.1.length ≠ 0 ∧ m ∈ e.2.1 then
      (e.1, (e.2.1.erase m, e.2.2 - 1))
    else e)

/-- The propagation performed for each certain safe cell `f` inside
`trivialclick` (lines 685-690) and `constraintsreduction` (lines
712-717, 722-728): every live constraint listing `f` loses it, with no
count change. -/
def removeFreeCs (h w : ℕ) (f : Cell) (cs : List (Cell × List Cell × ℤ)) :
    List (Cell × List Cell × ℤ) :=
  cs.map (fun e =>
    if decide (e.1 ∈ neighborsBox f h w) ∧ f ∈ e.2.1 then
      (e.1, (e.2.1.erase f, e.2.2))
    else e)

/-- One key of the `trivialflag` scan (lines 644-661): if the
constraint's unknown count equals its remaining mines, retire it; if
they are positive, queue every unknown as a flag and propagate.  (The
Python snapshot iterates keys while looking the live values up in
`self.constraints`, which this fold reproduces; the per-mine iteration
order of the Python `set` is modelled by list order.) -/
def tfStep (s : CspState) (k : Cell) : CspState :=
  match lookupC s.constraints k with
  | none => s
  | some (S, n) =>
    if (S.length : ℤ) = n then
      if S.length = 0 then
        { s with constraints := popC s.constraints k, deleted := s.deleted ++ [k] }
      else
        let s1 : CspState :=
          { s with constraints := popC s.constraints k, deleted := s.deleted ++ [k] }
        S.foldl (fun s2 m =>
          let s3 : CspState := { s2 with to_flag := s2.to_flag ++ [m] }
          { s3 with constraints := removeMineCs s3.height s3.width m s3.constraints }) s1
    else s

/-- One key of the `trivialclick` scan (lines 674-690): if the
constraint's remaining count is zero, retire it and queue every unknown
as a click, removing it from the other constraints. -/
def tcStep (s : CspState) (k : Cell) : CspState :=
  match lookupC s.constraints k with
  | none => s
  | some (S, n) =>
    if n = 0 then
      if S.length = 0 then
        { s with constraints := popC s.constraints k, deleted := s.deleted ++ [k] }
      else
        let s1 : CspState :=
          { s with constraints := popC s.constraints k, deleted := s.deleted ++ [k] }
        S.foldl (fun s2 f =>
          let s3 : CspState := { s2 with to_click := s2.to_click ++ [f] }
          { s3 with constraints := removeFreeCs s3.height s3.width f s3.constraints }) s1
    else s

/-- The rescan shared by the tails of `trivialflag` (lines 662-669) and
`trivialclick` (lines 691-698): the first live constraint with zero
remaining mines switches to the click pass, the first with unknowns
equal to remaining mines to the flag pass. -/
def rescan (cs : List (Cell × List Cell × ℤ)) : Option Bool :=
  cs.findSome? (fun e =>
    if e.2.2 = 0 then some true
    else if (e.2.1.length : ℤ) = e.2.2 then some false
    else none)

/-- The mutual recursion `trivialflag`/`trivialclick` (lines 642-699)
as one fuel-indexed loop; `true` selects the click pass.  The Python
recursion terminates because the total unknown-set size shrinks, so a
large enough fuel reproduces it; the soundness theorems hold for every
fuel. -/
def trivialLoop : ℕ → Bool → CspState → CspState
  | 0, _, s => s
  | fuel + 1, clickMode, s =>
    let s1 :=
      if clickMode then (s.constraints.map (fun e => e.1)).foldl tcStep s
      else (s.constraints.map (fun e => e.1)).foldl tfStep s
    match rescan s1.constraints with
    | some true => trivialLoop fuel true s1
    | some false => trivialLoop fuel false s1
    | none => s1

/-- `CSPSolver.trivialflag()`. -/
def trivialflag (fuel : ℕ) (s : CspState) : CspState := trivialLoop fuel false s

/-- `CSPSolver.trivialclick()`. -/
def trivialclick (fuel : ℕ) (s : CspState) : CspState := trivialLoop fuel true s

/-- Queue a batch of safe cells and strip each from the live
constraints — the body of both subset branches of
`constraintsreduction` (lines 707-728). -/
def clickAll (F : List Cell) (s : CspState) : CspState :=
  F.foldl (fun s2 f =>
    let s3 : CspState := { s2 with to_click := s2.to_click ++ [f] }
    { s3 with constraints := removeFreeCs s3.height s3.width f s3.constraints }) s

/-- One ordered pair of the `constraintsreduction` double loop (lines
703-728): two live constraints with equal remaining counts and
different unknown sets, one a subset of the other, make the excess
cells safe. -/
def crStep (s : CspState) (c1 c2 : Cell) : CspState :=
  if c1 ≠ c2 then
    match lookupC s.constraints c1, lookupC s.constraints c2 with
    | some (S1, n1), some (S2, n2) =>
      if n1 = n2 ∧ ¬ seq S1 S2 = true then
        if S1.all (fun x => decide (x ∈ S2)) then
          clickAll (S2.filter (fun x => !decide (x ∈ S1))) s
        else if S2.all (fun x => decide (x ∈ S1)) then
          clickAll (S1.filter (fun x => !decide (x ∈ S2))) s
        else s
      else s
    | _, _ => s
  else s

/-- The condition of the rescan double loop at the end of
`constraintsreduction` (lines 730-739). -/
def crCond (s : CspState) (c1 c2 : Cell) : Bool :=
  decide (c1 ≠ c2) &&
    match lookupC s.constraints c1, lookupC s.constraints c2 with
    | some (S1, n1), some (S2, n2) =>
      decide (n1 = n2) && !seq S1 S2 &&
        (S1.all (fun x => decide (x ∈ S2)) || S2.all (fun x => decide (x ∈ S1)))
    | _, _ => false

/-- The rescan double loop at the end of `constraintsreduction`: for
each `c1` (in snapshot order), the recursion re-runs once if some `c2`
still satisfies the subset condition (the Python `break` only exits the
inner loop). -/
def crRescanAux (f : CspState → CspState) (keys : List Cell) (s : CspState) : CspState :=
  keys.foldl (fun sa c1 => if keys.any (fun c2 => crCond sa c1 c2) then f sa else sa) s

/-- `CSPSolver.constraintsreduction()` (lines 701-740), fuel-indexed
like `trivialLoop`. -/
def constraintsreduction : ℕ → CspState → CspState
  | 0, s => s
  | fuel + 1, s =>
    let keys := s.constraints.map (fun e => e.1)
    let s1 := keys.foldl (fun sa c1 => keys.foldl (fun sb c2 => crStep sb c1 c2) sa) s
    let s2 := trivialflag fuel s1
    crRescanAux (constraintsreduction fuel) (s2.constraints.map (fun e => e.1)) s2

end Csp

/-! ## Semantic predicates for the game engine -/

/-- The hidden board numbers are correct: every in-bounds non-mine cell
carries its adjacency count.  `populate_board` establishes this. -/
def numbersOK (g : Game) : Prop :=
  ∀ d : Cell, inb g.height g.width d = true → g.board d ≠ -1 →
    g.board d = nearby_mines g.board g.height g.width d

/-- The revealed set is cascade-closed: every revealed zero cell has all
its in-bounds neighbors revealed. -/
def zeroClosed (g : Game) : Prop :=
  ∀ d ∈ g.revealed, g.board d = 0 →
    ∀ e ∈ neighborsBox d g.height g.width, e ∈ g.revealed

/-- Cascade closure up to a list of pending obligations `L`
(the worklist still to be processed by the reveal loop). -/
def closedMod (L : List Cell) (g : Game) : Prop :=
  ∀ d ∈ g.revealed, g.board d = 0 →
    ∀ e ∈ neighborsBox d g.height g.width, e ∈ g.revealed ∨ e ∈ L

/-- The state invariant of `MineSweeperGame`, established by `init` and
preserved by `click` and `flag`: the mine set is exactly the in-bounds
`-1` cells and is duplicate-free, numbers are correct, revealed cells
are in-bounds non-mines, the revealed set is cascade-closed, and
nothing is revealed before the first click. -/
def Inv (g : Game) : Prop :=
  (∀ d : Cell, d ∈ g.mines ↔ (inb g.height g.width d = true ∧ g.board d = -1)) ∧
  g.mines.Nodup ∧
  numbersOK g ∧
  (∀ d ∈ g.revealed, inb g.height g.width d = true ∧ g.board d ≠ -1) ∧
  zeroClosed g ∧
  (g.firstclick = true → g.revealed = [])

/-- Everything `reveal` leaves untouched, together with monotonicity of
the revealed set. -/
def RevFrame (g g' : Game) : Prop :=
  g'.height = g.height ∧ g'.width = g.width ∧ g'.board = g.board ∧
  g'.mines = g.mines ∧ g'.flags = g.flags ∧ g'.firstclick = g.firstclick ∧
  g'.failed = g.failed ∧ ∀ d ∈ g.revealed, d ∈ g'.revealed

/-- One cascade step on board `b`: from a zero-count cell to any of its
in-bounds Moore neighbors. -/
def zstep (b : Cell → ℤ) (h w : ℕ) (a c : Cell) : Prop :=
  b a = 0 ∧ c ∈ neighborsBox a h w

/-- Cascade reachability: chains of zero-count cells starting at `c`;
an element of `Reach b h w c` is either on such a chain (so itself a
zero cell, except possibly the endpoint) or a first-ring cell adjacent
to one. -/
def Reach (b : Cell → ℤ) (h w : ℕ) (c d : Cell) : Prop :=
  Relation.ReflTransGen (zstep b h w) c d

/-- The moves the driver loop can apply to a game: clicking or flagging
an on-board cell (Python list indexing is only defined on the grid). -/
inductive GameStep : Game → Game → Prop
  | click (g : Game) (c : Cell) (g' : Game) :
      inb g.height g.width c = true → Game.click g c = some g' → GameStep g g'
  | flag (g : Game) (c : Cell) :
      inb g.height g.width c = true → GameStep g (Game.flag g c)

/-- Multi-step reachability between game states. -/
def GameReach : Game → Game → Prop := Relation.ReflTransGen GameStep

/-! ## Semantic predicates for the constraint store

Soundness of the CSP solver is stated against the set `Phi` of full
mine assignments still consistent with everything observed; each board
assignment is a predicate `Cell → Bool` (`true` = mine). -/

/-- A full mine assignment of the hidden board. -/
abbrev Assign := Cell → Bool

/-- `c` is a mine in every consistent assignment. -/
def EntMine (Phi : Set Assign) (c : Cell) : Prop := ∀ M ∈ Phi, M c = true

/-- `c` is safe in every consistent assignment. -/
def EntSafe (Phi : Set Assign) (c : Cell) : Prop := ∀ M ∈ Phi, M c = false

/-- A stored constraint `(S, n)` is accurate: every consistent
assignment puts exactly `n` mines on `S`. -/
def AccurateC (Phi : Set Assign) (S : List Cell) (n : ℤ) : Prop :=
  ∀ M ∈ Phi, ((S.countP M : ℤ)) = n

/-- What the game guarantees about a visible board handed to the
solver, relative to the consistent assignments `Phi`: every assignment
matches the revealed numbers (revealed cells are safe and their
neighborhoods carry the shown count), every flagged cell is a mine in
every consistent assignment (all flags placed by this solver family are
popped from its own soundly-deduced queue), and in-bounds values are
unknown, flagged, or counts. -/
def BoardOK (Phi : Set Assign) (h w : ℕ) (vb : Cell → ℤ) : Prop :=
  (∀ M ∈ Phi, ∀ d : Cell, inb h w d = true →
      (0 ≤ vb d → M d = false ∧ (((neighborsBox d h w).countP M : ℤ)) = vb d) ∧
      (vb d = -3 → M d = true)) ∧
  (∀ d : Cell, inb h w d = true → vb d = -2 ∨ vb d = -3 ∨ 0 ≤ vb d)

/-- Reachable states of the constraint store, indexed by the current
set of consistent assignments.  The constructors are exactly the
operations `CSPSolver.click` performs on the store, with the facts the
environment (game plus driver loop) guarantees as side conditions:
observations only shrink the consistent set (`shrink`), the cells in
`newfreecells` were revealed, hence safe (`setFrees`), and boards
handed in satisfy `BoardOK` (`addC`). -/
inductive CspReach : Set Assign → CspState → Prop
  | start (Phi : Set Assign) (h w : ℕ) : CspReach Phi (Csp.initSt h w)
  | shrink {Phi Phi' : Set Assign} {s : CspState} :
      CspReach Phi s → Phi' ⊆ Phi → CspReach Phi' s
  | setBoard {Phi : Set Assign} {s : CspState} (vb : Cell → ℤ) :
      CspReach Phi s → CspReach Phi { s with vboard := vb }
  | setFrees {Phi : Set Assign} {s : CspState} (N : List Cell) :
      CspReach Phi s → (∀ M ∈ Phi, ∀ c ∈ N, M c = false) →
      CspReach Phi { s with newfreecells := N }
  | addC {Phi : Set Assign} {s : CspState} :
      CspReach Phi s → BoardOK Phi s.height s.width s.vboard →
      CspReach Phi (Csp.addconstraints s)
  | prune {Phi : Set Assign} {s : CspState} :
      CspReach Phi s → CspReach Phi (Csp.pruneunknownneighs s)
  | tflag {Phi : Set Assign} {s : CspState} (fuel : ℕ) :
      CspReach Phi s → CspReach Phi (Csp.trivialflag fuel s)
  | tclick {Phi : Set Assign} {s : CspState} (fuel : ℕ) :
      CspReach Phi s → CspReach Phi (Csp.trivialclick fuel s)
  | reduce {Phi : Set Assign} {s : CspState} (fuel : ℕ) :
      CspReach Phi s → CspReach Phi (Csp.constraintsreduction fuel s)
  | popClick {Phi : Set Assign} {s : CspState} :
      CspReach Phi s → CspReach Phi { s with to_click := s.to_click.dropLast }
  | popFlag {Phi : Set Assign} {s : CspState} :
      CspReach Phi s → CspReach Phi { s with to_flag := s.to_flag.dropLast }

/-- The store soundness invariant: all live constraints are accurate
with duplicate-free unknown sets, queued flags are entailed mines,
queued clicks and newly-free cells are entailed safe. -/
def StoreInv (Phi : Set Assign) (s : CspState) : Prop :=
  (∀ e ∈ s.constraints, AccurateC Phi e.2.1 e.2.2 ∧ e.2.1.Nodup) ∧
  (∀ c ∈ s.to_flag, EntMine Phi c) ∧
  (∀ c ∈ s.to_click, EntSafe Phi c) ∧
  (∀ c ∈ s.newfreecells, EntSafe Phi c)

/-! ## Per-cell deduction contributions (for the characterization of
`deduce`) -/

/-- Cells queued for clicking by the deduction rule at numbered cell
`c`: its unknown neighbors when its flagged-neighbor count equals its
number. -/
def dcPart (s : SolverSt) (c : Cell) : List Cell :=
  if ((Solver.get_neighbors s c (-3)).length : ℤ) = Solver.get s c then
    Solver.get_neighbors s c (-2)
  else []

/-- Cells queued for flagging by the deduction rule at numbered cell
`c`: its unknown neighbors when flagged plus unknown neighbors equal
its number (and the click rule did not fire). -/
def dfPart (s : SolverSt) (c : Cell) : List Cell :=
  if ((Solver.get_neighbors s c (-3)).length : ℤ) = Solver.get s c then []
  else if ((Solver.get_neighbors s c (-3)).length : ℤ) +
      ((Solver.get_neighbors s c (-2)).length : ℤ) = Solver.get s c then
    Solver.get_neighbors s c (-2)
  else []

/-! ## Concrete execution traces used as counterexamples and witnesses -/

/-- A deterministic stand-in for `random.choice`: the head of the list
(a legitimate resolution of the nondeterminism). -/
def chooseHead (l : List Cell) : Cell := l.headD (0, 0)

/-- C3 counterexample trace: 1×3 game, mine at `(0,0)`; click the safe
`(0,1)`, then click the mine, then flag it. -/
def c3g0 : Game := Game.init 1 3 [(0, 0)]

/-- After clicking `(0,1)` (safe first click). -/
def c3g1 : Game := (Game.click c3g0 (0, 1)).getD c3g0

/-- After clicking the mine `(0,0)` (not a first click: game lost). -/
def c3g2 : Game := (Game.click c3g1 (0, 0)).getD c3g1

/-- After flagging `(0,0)`: the flag set equals the mine set, but the
game is lost. -/
def c3g3 : Game := Game.flag c3g2 (0, 0)

/-- C5 counterexample trace: 1×3 game, one mine, two wrong flags. -/
def c5g1 : Game := Game.flag (Game.init 1 3 [(0, 0)]) (0, 1)

/-- After the second wrong flag: three would trip the check, two do
not. -/
def c5g2 : Game := Game.flag c5g1 (0, 2)

/-- C10 witness trace: from the state `c3g1` (mine at `(0,0)`, first
click consumed), flag the mine — the game is `Won`; the theorem then
clicks the mine from this terminal state. -/
def c10g2 : Game := Game.flag c3g1 (0, 0)

/-- C6 failing input: the visible board `[[-2,-2,-2],[1,2,1]]` of a 2×3
game with two mines (hidden layout mines at `(0,0)` and `(0,2)`). -/
def vbC6 : Cell → ℤ := fun c =>
  if c.1 = 0 then -2 else if c.2 = 0 then 1 else if c.2 = 1 then 2 else 1

/-- C6 failing input solver state: past the first click, no flags, no
queued actions, empty board cache. -/
def c6s : SolverSt := { Solver.initSt 2 3 2 with firstclick := false, vboard := vbC6 }

/-- C8 counterexample: a 2×6 game with mines `(0,3)`, `(1,3)`, `(0,5)`
driven by `DeductionSolver.click`. -/
def c8g0 : Game := Game.init 2 6 [(0, 3), (1, 3), (0, 5)]

/-- C8: the fresh deduction solver. -/
def c8s0 : SolverSt := Solver.initSt 2 6 3

/-- C8 call 1: nothing deducible, random fallback picks `(0,0)`. -/
def c8r1 : Option (Bool × Cell) × SolverSt := Solver.clickD c8s0 c8g0.vboard chooseHead

/-- C8: game after clicking `(0,0)` (cascade opens columns 0-2). -/
def c8g1 : Game := (Game.click c8g0 (0, 0)).getD c8g0

/-- C8 call 2: both 2-cells queue flags for `(0,3)` and `(1,3)` twice
over; `(1,3)` is popped. -/
def c8r2 : Option (Bool × Cell) × SolverSt := Solver.clickD c8r1.2 c8g1.vboard chooseHead

/-- C8: game after flagging `(1,3)`. -/
def c8g2 : Game := Game.flag c8g1 (1, 3)

/-- C8 call 3: `(0,3)` queued again by both 2-cells and popped. -/
def c8r3 : Option (Bool × Cell) × SolverSt := Solver.clickD c8r2.2 c8g2.vboard chooseHead

/-- C8: game after flagging `(0,3)`; still in progress (a third mine
remains). -/
def c8g3 : Game := Game.flag c8g2 (0, 3)

/-- C8 call 4: the stale queue pops `(0,3)` once more — a flag action
on an already-flagged cell. -/
def c8r4 : Option (Bool × Cell) × SolverSt := Solver.clickD c8r3.2 c8g3.vboard chooseHead

/-- C2 concrete run: the single assignment consistent with a 1×2 board
whose left cell shows `1` — the right cell is the mine. -/
def M0 : Assign := fun c => decide (c = ((0 : ℤ), (1 : ℤ)))

/-- C2: the consistent-assignment set of that observation. -/
def Phi0 : Set Assign := {M0}

/-- C2: the visible 1×2 board `[[1, -2]]`. -/
def vb0 : Cell → ℤ := fun c => if c = ((0 : ℤ), (0 : ℤ)) then 1 else -2

/-- C2: constraint store after receiving the board and running
`addconstraints`: one constraint `(0,0) ↦ ([(0,1)], 1)`. -/
def c2s1 : CspState := Csp.addconstraints { Csp.initSt 1 2 with vboard := vb0 }

/-- C2: store after `trivialflag`: the mine `(0,1)` is queued. -/
def c2s2 : CspState := Csp.trivialflag 3 c2s1

/-! # Theorems -/

/-! ## Generic helpers -/

theorem seq_true_iff (a b : List Cell) :
    seq a b = true ↔ ∀ c : Cell, c ∈ a ↔ c ∈ b := by
  simp only [seq, Bool.and_eq_true, List.all_eq_true, decide_eq_true_eq]
  constructor
  · rintro ⟨h1, h2⟩ c
    exact ⟨fun hc => h1 c hc, fun hc => h2 c hc⟩
  · intro h
    exact ⟨fun c hc => (h c).mp hc, fun c hc => (h c).mpr hc⟩

theorem mem_sadd {l : List Cell} {c d : Cell} :
    d ∈ sadd l c ↔ d = c ∨ d ∈ l := by
  unfold sadd
  split
  · rename_i h
    constructor
    · exact fun hd => Or.inr hd
    · rintro (rfl | hd)
      · exact h
      · exact hd
  · simp [List.mem_cons]

theorem sadd_self_mem (l : List Cell) (c : Cell) : c ∈ sadd l c :=
  mem_sadd.mpr (Or.inl rfl)

theorem length_sadd_le (l : List Cell) (c : Cell) :
    (sadd l c).length ≤ l.length + 1 := by
  unfold sadd
  split
  · exact Nat.le_succ _
  · exact Nat.le_refl _

theorem sadd_nodup {l : List Cell} (h : l.Nodup) (c : Cell) : (sadd l c).Nodup := by
  unfold sadd
  split
  · exact h
  · exact List.nodup_cons.mpr ⟨by assumption, h⟩

/-! ## Geometry lemmas -/

theorem mem_neighborsBox_inb {d c : Cell} {h w : ℕ}
    (hd : d ∈ neighborsBox c h w) : inb h w d = true :=
  (List.mem_filter.mp hd).2

theorem mem_block_of_neighborsBox {d c : Cell} {h w : ℕ}
    (hd : d ∈ neighborsBox c h w) : d ∈ block c := by
  obtain ⟨hmap, _⟩ := List.mem_filter.mp hd
  obtain ⟨o, ho, rfl⟩ := List.mem_map.mp hmap
  have hsub : ∀ o ∈ offsets8, o ∈ offsets9 := by decide
  exact List.mem_map.mpr ⟨o, hsub o ho, rfl⟩

theorem mem_neighborsBox_of_block {d c : Cell} {h w : ℕ}
    (hd : d ∈ block c) (hne : d ≠ c) (hinb : inb h w d = true) :
    d ∈ neighborsBox c h w := by
  obtain ⟨o, ho, rfl⟩ := List.mem_map.mp hd
  have hcases : ∀ o ∈ offsets9, o = ((0 : ℤ), (0 : ℤ)) ∨ o ∈ offsets8 := by decide
  rcases hcases o ho with rfl | ho8
  · exact absurd (by simp) hne
  · exact List.mem_filter.mpr ⟨List.mem_map.mpr ⟨o, ho8, rfl⟩, hinb⟩

theorem mem_gridList {h w : ℕ} {d : Cell} :
    d ∈ gridList h w ↔ inb h w d = true := by
  obtain ⟨x, y⟩ := d
  constructor
  · intro hmem
    obtain ⟨i, hi, hm⟩ := List.mem_flatMap.mp hmem
    obtain ⟨j, hj, heq⟩ := List.mem_map.mp hm
    have hx : (i : ℤ) = x := congrArg Prod.fst heq
    have hy : (j : ℤ) = y := congrArg Prod.snd heq
    have hi' : i < h := List.mem_range.mp hi
    have hj' : j < w := List.mem_range.mp hj
    unfold inb
    rw [decide_eq_true_eq]
    dsimp only
    refine ⟨by omega, by omega, by omega, by omega⟩
  · intro hinb
    unfold inb at hinb
    obtain ⟨h1, h2, h3, h4⟩ := of_decide_eq_true hinb
    dsimp only at h1 h2 h3 h4
    refine List.mem_flatMap.mpr ⟨x.toNat, List.mem_range.mpr (by omega), ?_⟩
    refine List.mem_map.mpr ⟨y.toNat, List.mem_range.mpr (by omega), ?_⟩
    show ((x.toNat : ℤ), (y.toNat : ℤ)) = (x, y)
    rw [Int.toNat_of_nonneg h1, Int.toNat_of_nonneg h3]

theorem gridList_nodup (h w : ℕ) : (gridList h w).Nodup := by
  unfold gridList
  refine List.nodup_flatMap.mpr ⟨?_, ?_⟩
  · intro i _
    have hinj : Function.Injective (fun k : ℕ => ((i : ℤ), (k : ℤ))) := by
      intro a b hab
      have : ((a : ℤ)) = (b : ℤ) := congrArg Prod.snd hab
      exact_mod_cast this
    show List.Nodup (List.map (fun k : ℕ => ((i : ℤ), (k : ℤ))) (List.range w))
    exact List.Nodup.map hinj (List.nodup_range w)
  · have hdis : ∀ (i j : ℕ), i ≠ j →
        List.Disjoint ((List.range w).map fun k : ℕ => ((i : ℤ), (k : ℤ)))
          ((List.range w).map fun k : ℕ => ((j : ℤ), (k : ℤ))) := by
      intro i j hij a ha hb
      obtain ⟨k, _, rfl⟩ := List.mem_map.mp ha
      obtain ⟨k', _, h2⟩ := List.mem_map.mp hb
      have : ((j : ℤ)) = (i : ℤ) := congrArg Prod.fst h2
      exact hij (by exact_mod_cast this.symm)
    exact (List.nodup_range h).pairwise_of_forall_ne (fun i _ j _ hij => hdis i j hij)

theorem gridList_length (h w : ℕ) : (gridList h w).length = h * w := by
  unfold gridList
  rw [List.length_flatMap]
  simp only [Function.comp_def, List.length_map, List.length_range]
  rw [List.map_const', List.sum_replicate, List.length_range, smul_eq_mul]

theorem mem_gridF {h w : ℕ} {d : Cell} : d ∈ gridF h w ↔ inb h w d = true := by
  unfold gridF
  rw [List.mem_toFinset]
  exact mem_gridList

theorem gridF_card (h w : ℕ) : (gridF h w).card = h * w := by
  unfold gridF
  rw [List.toFinset_card_of_nodup (gridList_nodup h w), gridList_length]

theorem sadd_toFinset (l : List Cell) (c : Cell) :
    (sadd l c).toFinset = insert c l.toFinset := by
  unfold sadd
  split
  · rename_i hc
    exact (Finset.insert_eq_self.mpr (List.mem_toFinset.mpr hc)).symm
  · rw [List.toFinset_cons]

/-- A zero-count cell on a correctly numbered board has no mined
neighbor. -/
theorem no_mine_nbrs {g : Game} (hnum : numbersOK g) {c : Cell}
    (hc : inb g.height g.width c = true) (h0 : g.board c = 0) :
    ∀ d ∈ neighborsBox c g.height g.width, g.board d ≠ -1 := by
  have hval := hnum c hc (by rw [h0]; decide)
  rw [h0] at hval
  unfold nearby_mines at hval
  have hcount : (neighborsBox c g.height g.width).countP
      (fun d => decide (g.board d = -1)) = 0 := by omega
  intro d hd hm
  have := List.countP_eq_zero.mp hcount d hd
  simp [hm] at this

theorem revFrame_rfl (g : Game) : RevFrame g g :=
  ⟨rfl, rfl, rfl, rfl, rfl, rfl, rfl, fun _ hd => hd⟩

theorem RevFrame.comp {g1 g2 g3 : Game} (h1 : RevFrame g1 g2)
    (h2 : RevFrame g2 g3) : RevFrame g1 g3 := by
  obtain ⟨a1, a2, a3, a4, a5, a6, a7, a8⟩ := h1
  obtain ⟨b1, b2, b3, b4, b5, b6, b7, b8⟩ := h2
  exact ⟨b1.trans a1, b2.trans a2, b3.trans a3, b4.trans a4, b5.trans a5,
    b6.trans a6, b7.trans a7, fun d hd => b8 d (a8 d hd)⟩

theorem numbersOK_of_frame {g g' : Game} (hf : RevFrame g g')
    (h : numbersOK g) : numbersOK g' := by
  obtain ⟨h1, h2, h3, _⟩ := hf
  unfold numbersOK at *
  rw [h1, h2, h3]
  exact h

/-! ## Flood-fill lemmas -/

theorem revealListAux_frame (f : Game → Cell → Option Game)
    (hf : ∀ g c g', f g c = some g' → RevFrame g g' ∧ c ∈ g'.revealed) :
    ∀ (cs : List Cell) (g g' : Game), Game.revealListAux f g cs = some g' →
      RevFrame g g' ∧ ∀ c ∈ cs, inb g.height g.width c = true → c ∈ g'.revealed := by
  intro cs
  induction cs with
  | nil =>
    intro g g' h
    rw [Game.revealListAux] at h
    cases h
    exact ⟨revFrame_rfl g, fun c hc => absurd hc (List.not_mem_nil c)⟩
  | cons c cs ih =>
    intro g g' h
    rw [Game.revealListAux] at h
    by_cases hc : c ∈ g.revealed
    · rw [if_pos hc] at h
      obtain ⟨hfr, hmem⟩ := ih g g' h
      refine ⟨hfr, fun d hd hinb => ?_⟩
      rcases List.mem_cons.mp hd with rfl | hd'
      · exact hfr.2.2.2.2.2.2.2 d hc
      · exact hmem d hd' hinb
    · rw [if_neg hc] at h
      by_cases hinb : inb g.height g.width c = true
      · rw [if_pos hinb] at h
        cases hfg : f g c with
        | none => rw [hfg] at h; cases h
        | some g1 =>
          rw [hfg] at h
          obtain ⟨hfr1, hc1⟩ := hf g c g1 hfg
          obtain ⟨hfr2, hmem⟩ := ih g1 g' h
          refine ⟨hfr1.comp hfr2, fun d hd hdinb => ?_⟩
          rcases List.mem_cons.mp hd with rfl | hd'
          · exact hfr2.2.2.2.2.2.2.2 d hc1
          · exact hmem d hd' (by rw [hfr1.1, hfr1.2.1]; exact hdinb)
      · rw [if_neg hinb] at h
        obtain ⟨hfr, hmem⟩ := ih g g' h
        refine ⟨hfr, fun d hd hdinb => ?_⟩
        rcases List.mem_cons.mp hd with rfl | hd'
        · exact absurd hdinb hinb
        · exact hmem d hd' hdinb

theorem reveal_frame : ∀ (fuel : ℕ) (g : Game) (c : Cell) (g' : Game),
    Game.reveal fuel g c = some g' → RevFrame g g' ∧ c ∈ g'.revealed := by
  intro fuel
  induction fuel with
  | zero => intro g c g' h; cases h
  | succ fuel ih =>
    intro g c g' h
    rw [Game.reveal] at h
    set g1 : Game := { g with revealed := sadd g.revealed c } with hg1
    by_cases hm : g1.board c = -1
    · rw [if_pos hm] at h; cases h
    · rw [if_neg hm] at h
      by_cases h0 : g1.board c = 0
      · rw [if_pos h0] at h
        obtain ⟨hfr, hmem⟩ := revealListAux_frame (Game.reveal fuel) ih _ _ _ h
        have hstep : RevFrame g { g1 with vboard := updFn g1.vboard c 0 } :=
          ⟨rfl, rfl, rfl, rfl, rfl, rfl, rfl,
            fun d hd => mem_sadd.mpr (Or.inr hd)⟩
        refine ⟨hstep.comp hfr, ?_⟩
        exact hfr.2.2.2.2.2.2.2 c (sadd_self_mem g.revealed c)
      · rw [if_neg h0] at h
        cases h
        exact ⟨⟨rfl, rfl, rfl, rfl, rfl, rfl, rfl,
          fun d hd => mem_sadd.mpr (Or.inr hd)⟩, sadd_self_mem g.revealed c⟩

theorem revealListAux_reach (f : Game → Cell → Option Game)
    (hfr : ∀ g c g', f g c = some g' → RevFrame g g' ∧ c ∈ g'.revealed)
    (hf : ∀ g c g', f g c = some g' →
      ∀ x ∈ g'.revealed, x ∈ g.revealed ∨ Reach g.board g.height g.width c x) :
    ∀ (cs : List Cell) (g g' : Game), Game.revealListAux f g cs = some g' →
      ∀ x ∈ g'.revealed, x ∈ g.revealed ∨
        ∃ c ∈ cs, c ∉ g.revealed ∧ inb g.height g.width c = true ∧
          Reach g.board g.height g.width c x := by
  intro cs
  induction cs with
  | nil =>
    intro g g' h x hx
    rw [Game.revealListAux] at h
    cases h
    exact Or.inl hx
  | cons c cs ih =>
    intro g g' h x hx
    rw [Game.revealListAux] at h
    by_cases hc : c ∈ g.revealed
    · rw [if_pos hc] at h
      rcases ih g g' h x hx with hx' | ⟨d, hd, hdr, hdi, hre⟩
      · exact Or.inl hx'
      · exact Or.inr ⟨d, List.mem_cons_of_mem c hd, hdr, hdi, hre⟩
    · rw [if_neg hc] at h
      by_cases hinb : inb g.height g.width c = true
      · rw [if_pos hinb] at h
        cases hfg : f g c with
        | none => rw [hfg] at h; cases h
        | some g1 =>
          rw [hfg] at h
          obtain ⟨hfr1, _⟩ := hfr g c g1 hfg
          rcases ih g1 g' h x hx with hx1 | ⟨d, hd, hdr, hdi, hre⟩
          · rcases hf g c g1 hfg x hx1 with hx' | hre
            · exact Or.inl hx'
            · exact Or.inr ⟨c, List.mem_cons_self c cs, hc, hinb, hre⟩
          · refine Or.inr ⟨d, List.mem_cons_of_mem c hd, ?_, ?_, ?_⟩
            · exact fun hdg => hdr (hfr1.2.2.2.2.2.2.2 d hdg)
            · rw [← hfr1.1, ← hfr1.2.1]; exact hdi
            · rw [← hfr1.2.2.1, ← hfr1.1, ← hfr1.2.1]; exact hre
      · rw [if_neg hinb] at h
        rcases ih g g' h x hx with hx' | ⟨d, hd, hdr, hdi, hre⟩
        · exact Or.inl hx'
        · exact Or.inr ⟨d, List.mem_cons_of_mem c hd, hdr, hdi, hre⟩

theorem reveal_reach : ∀ (fuel : ℕ) (g : Game) (c : Cell) (g' : Game),
    Game.reveal fuel g c = some g' →
    ∀ x ∈ g'.revealed, x ∈ g.revealed ∨ Reach g.board g.height g.width c x := by
  intro fuel
  induction fuel with
  | zero => intro g c g' h; cases h
  | succ fuel ih =>
    intro g c g' h x hx
    rw [Game.reveal] at h
    by_cases hm : g.board c = -1
    · rw [if_pos hm] at h; cases h
    · rw [if_neg hm] at h
      by_cases h0 : g.board c = 0
      · rw [if_pos h0] at h
        rcases revealListAux_reach (Game.reveal fuel) (reveal_frame fuel) ih
            _ _ _ h x hx with hx2 | ⟨d, hd, hdr, hdi, hre⟩
        · rcases mem_sadd.mp hx2 with rfl | hx'
          · exact Or.inr Relation.ReflTransGen.refl
          · exact Or.inl hx'
        · have hdc : d ≠ c := fun hdc => hdr (hdc ▸ sadd_self_mem g.revealed c)
          have hdn : d ∈ neighborsBox c g.height g.width :=
            mem_neighborsBox_of_block hd hdc hdi
          exact Or.inr (Relation.ReflTransGen.head ⟨h0, hdn⟩ hre)
      · rw [if_neg h0] at h
        cases h
        rcases mem_sadd.mp hx with rfl | hx'
        · exact Or.inr Relation.ReflTransGen.refl
        · exact Or.inl hx'

theorem closedMod_of_cons_mem {c : Cell} {L : List Cell} {g : Game}
    (h : closedMod (c :: L) g) (hc : c ∈ g.revealed) : closedMod L g := by
  intro d hd h0 e he
  rcases h d hd h0 e he with he' | hem
  · exact Or.inl he'
  · rcases List.mem_cons.mp hem with rfl | hL
    · exact Or.inl hc
    · exact Or.inr hL

theorem closedMod_of_cons_notinb {c : Cell} {L : List Cell} {g : Game}
    (h : closedMod (c :: L) g) (hc : inb g.height g.width c = false) :
    closedMod L g := by
  intro d hd h0 e he
  rcases h d hd h0 e he with he' | hem
  · exact Or.inl he'
  · rcases List.mem_cons.mp hem with rfl | hL
    · rw [mem_neighborsBox_inb he] at hc
      cases hc
    · exact Or.inr hL

theorem revealListAux_closed (f : Game → Cell → Option Game)
    (hfr : ∀ g c g', f g c = some g' → RevFrame g g' ∧ c ∈ g'.revealed)
    (hf : ∀ g c g' K, f g c = some g' → closedMod K g → closedMod K g') :
    ∀ (cs : List Cell) (g g' : Game) (K : List Cell),
      Game.revealListAux f g cs = some g' → closedMod (cs ++ K) g →
      closedMod K g' := by
  intro cs
  induction cs with
  | nil =>
    intro g g' K h hcl
    rw [Game.revealListAux] at h
    cases h
    exact hcl
  | cons c cs ih =>
    intro g g' K h hcl
    rw [Game.revealListAux] at h
    by_cases hc : c ∈ g.revealed
    · rw [if_pos hc] at h
      exact ih g g' K h (closedMod_of_cons_mem hcl hc)
    · rw [if_neg hc] at h
      by_cases hinb : inb g.height g.width c = true
      · rw [if_pos hinb] at h
        cases hfg : f g c with
        | none => rw [hfg] at h; cases h
        | some g1 =>
          rw [hfg] at h
          obtain ⟨hfr1, hc1⟩ := hfr g c g1 hfg
          have hcl1 : closedMod (c :: (cs ++ K)) g1 := hf g c g1 _ hfg hcl
          exact ih g1 g' K h (closedMod_of_cons_mem hcl1 hc1)
      · rw [if_neg hinb] at h
        have hfalse : inb g.height g.width c = false := by
          cases hb : inb g.height g.width c
          · rfl
          · exact absurd hb hinb
        exact ih g g' K h (closedMod_of_cons_notinb hcl hfalse)

theorem reveal_closed : ∀ (fuel : ℕ) (g : Game) (c : Cell) (g' : Game)
    (K : List Cell), Game.reveal fuel g c = some g' →
    closedMod K g → closedMod K g' := by
  intro fuel
  induction fuel with
  | zero => intro g c g' K h; cases h
  | succ fuel ih =>
    intro g c g' K h hcl
    rw [Game.reveal] at h
    by_cases hm : g.board c = -1
    · rw [if_pos hm] at h; cases h
    · rw [if_neg hm] at h
      by_cases h0 : g.board c = 0
      · rw [if_pos h0] at h
        refine revealListAux_closed (Game.reveal fuel) (reveal_frame fuel)
          (fun g c g' K hr hc => ih g c g' K hr hc) _ _ _ _ h ?_
        intro d hd hd0 e he
        rcases mem_sadd.mp hd with rfl | hdg
        · exact Or.inr (List.mem_append_left K (mem_block_of_neighborsBox he))
        · rcases hcl d hdg hd0 e he with he' | heK
          · exact Or.inl (mem_sadd.mpr (Or.inr he'))
          · exact Or.inr (List.mem_append_right _ heK)
      · rw [if_neg h0] at h
        cases h
        intro d hd hd0 e he
        rcases mem_sadd.mp hd with rfl | hdg
        · exact absurd hd0 h0
        · rcases hcl d hdg hd0 e he with he' | heK
          · exact Or.inl (mem_sadd.mpr (Or.inr he'))
          · exact Or.inr heK

theorem gridF_sdiff_card_le (h w : ℕ) (s : Finset Cell) :
    (gridF h w \ s).card ≤ h * w :=
  le_trans (Finset.card_le_card Finset.sdiff_subset) (le_of_eq (gridF_card h w))

theorem revealListAux_some (fuel : ℕ)
    (hsome : ∀ (g : Game) (c : Cell), numbersOK g →
      inb g.height g.width c = true → g.board c ≠ -1 →
      2 + (gridF g.height g.width \ (insert c g.revealed.toFinset)).card ≤ fuel →
      ∃ g', Game.reveal fuel g c = some g') :
    ∀ (cs : List Cell) (g : Game), numbersOK g →
      (∀ c ∈ cs, inb g.height g.width c = true → g.board c ≠ -1) →
      1 + (gridF g.height g.width \ g.revealed.toFinset).card ≤ fuel →
      ∃ g', Game.revealListAux (Game.reveal fuel) g cs = some g' := by
  intro cs
  induction cs with
  | nil =>
    intro g _ _ _
    exact ⟨g, by rw [Game.revealListAux]⟩
  | cons c cs ih =>
    intro g hnum hsafe hfuel
    by_cases hc : c ∈ g.revealed
    · obtain ⟨g', hg'⟩ := ih g hnum (fun d hd => hsafe d (List.mem_cons_of_mem c hd)) hfuel
      exact ⟨g', by rw [Game.revealListAux, if_pos hc]; exact hg'⟩
    · by_cases hinb : inb g.height g.width c = true
      · have hcg : c ∈ gridF g.height g.width \ g.revealed.toFinset :=
          Finset.mem_sdiff.mpr ⟨mem_gridF.mpr hinb,
            fun hmem => hc (List.mem_toFinset.mp hmem)⟩
        have hcard : (gridF g.height g.width \ (insert c g.revealed.toFinset)).card =
            (gridF g.height g.width \ g.revealed.toFinset).card - 1 := by
          rw [Finset.sdiff_insert, Finset.card_erase_of_mem hcg]
        have hpos : 0 < (gridF g.height g.width \ g.revealed.toFinset).card :=
          Finset.card_pos.mpr ⟨c, hcg⟩
        obtain ⟨g1, hg1⟩ := hsome g c hnum hinb
          (hsafe c (List.mem_cons_self c cs) hinb) (by omega)
        obtain ⟨hfr, hc1⟩ := reveal_frame fuel g c g1 hg1
        have hsub : insert c g.revealed.toFinset ⊆ g1.revealed.toFinset := by
          intro x hx
          rcases Finset.mem_insert.mp hx with rfl | hx'
          · exact List.mem_toFinset.mpr hc1
          · exact List.mem_toFinset.mpr
              (hfr.2.2.2.2.2.2.2 x (List.mem_toFinset.mp hx'))
        have hcard2 : (gridF g1.height g1.width \ g1.revealed.toFinset).card ≤
            (gridF g.height g.width \ (insert c g.revealed.toFinset)).card := by
          rw [hfr.1, hfr.2.1]
          exact Finset.card_le_card (Finset.sdiff_subset_sdiff (le_refl _) hsub)
        obtain ⟨g', hg'⟩ := ih g1 (numbersOK_of_frame hfr hnum)
          (fun d hd hdinb => by
            rw [hfr.2.2.1]
            exact hsafe d (List.mem_cons_of_mem c hd)
              (by rw [← hfr.1, ← hfr.2.1]; exact hdinb))
          (by omega)
        exact ⟨g', by rw [Game.revealListAux, if_neg hc, if_pos hinb, hg1]; exact hg'⟩
      · obtain ⟨g', hg'⟩ := ih g hnum (fun d hd => hsafe d (List.mem_cons_of_mem c hd)) hfuel
        exact ⟨g', by rw [Game.revealListAux, if_neg hc, if_neg hinb]; exact hg'⟩

theorem reveal_some : ∀ (fuel : ℕ) (g : Game) (c : Cell), numbersOK g →
    inb g.height g.width c = true → g.board c ≠ -1 →
    2 + (gridF g.height g.width \ (insert c g.revealed.toFinset)).card ≤ fuel →
    ∃ g', Game.reveal fuel g c = some g' := by
  intro fuel
  induction fuel with
  | zero => intro g c _ _ _ hfuel; omega
  | succ fuel ih =>
    intro g c hnum hinb hm hfuel
    by_cases h0 : g.board c = 0
    · have hsafe : ∀ d ∈ block c, inb g.height g.width d = true → g.board d ≠ -1 := by
        intro d hd hdinb
        by_cases hdc : d = c
        · rw [hdc, h0]; decide
        · exact no_mine_nbrs hnum hinb h0 d (mem_neighborsBox_of_block hd hdc hdinb)
      have hfuel2 : 1 + (gridF g.height g.width \ (sadd g.revealed c).toFinset).card
          ≤ fuel := by
        rw [sadd_toFinset]
        omega
      obtain ⟨g', hg'⟩ := revealListAux_some fuel ih (block c)
        { g with revealed := sadd g.revealed c,
                 vboard := updFn g.vboard c 0 } hnum hsafe hfuel2
      exact ⟨g', by rw [Game.reveal, if_neg hm, if_pos h0]; exact hg'⟩
    · exact ⟨_, by rw [Game.reveal, if_neg hm, if_neg h0]⟩

/-! ## Populate and invariant lemmas -/

theorem populate_mine_iff (h w : ℕ) (b : Cell → ℤ) (d : Cell) :
    populate_board h w b d = -1 ↔ b d = -1 := by
  unfold populate_board
  split
  · rename_i hcond
    constructor
    · intro hcontra
      have := Int.natCast_nonneg ((neighborsBox d h w).countP (fun e => decide (b e = -1)))
      unfold nearby_mines at hcontra
      omega
    · intro hb
      exact absurd hb hcond.2
  · exact Iff.rfl

theorem nearby_congr (h w : ℕ) (b b' : Cell → ℤ)
    (hmine : ∀ d, b d = -1 ↔ b' d = -1) (c : Cell) :
    nearby_mines b h w c = nearby_mines b' h w c := by
  unfold nearby_mines
  congr 1
  apply List.countP_congr
  intro d _
  simp only [decide_eq_true_eq]
  exact hmine d

theorem populate_ok (h w : ℕ) (b : Cell → ℤ) :
    ∀ d, inb h w d = true → populate_board h w b d ≠ -1 →
      populate_board h w b d = nearby_mines (populate_board h w b) h w d := by
  intro d hd hne
  have hb : b d ≠ -1 := fun hb => hne ((populate_mine_iff h w b d).mpr hb)
  have h1 : populate_board h w b d = nearby_mines b h w d := by
    unfold populate_board
    rw [if_pos ⟨hd, hb⟩]
  rw [h1]
  exact nearby_congr h w b _ (fun e => (populate_mine_iff h w b e).symm) d

/-- Every cell cascade-reachable from a safe in-bounds cell on a
correctly numbered board is itself in-bounds and safe. -/
theorem reach_safe {g : Game} (hnum : numbersOK g) {c x : Cell}
    (hc : inb g.height g.width c = true) (hcm : g.board c ≠ -1)
    (hre : Reach g.board g.height g.width c x) :
    inb g.height g.width x = true ∧ g.board x ≠ -1 := by
  induction hre with
  | refl => exact ⟨hc, hcm⟩
  | tail _ hstep ih =>
    obtain ⟨he0, hxn⟩ := hstep
    exact ⟨mem_neighborsBox_inb hxn,
      no_mine_nbrs hnum ih.1 he0 _ hxn⟩

theorem zeroClosed_iff_closedMod_nil (g : Game) :
    zeroClosed g ↔ closedMod [] g := by
  constructor
  · intro h d hd h0 e he
    exact Or.inl (h d hd h0 e he)
  · intro h d hd h0 e he
    rcases h d hd h0 e he with he' | habs
    · exact he'
    · exact absurd habs (List.not_mem_nil e)

/-- `reveal` preserves the game invariant (for a click on an in-bounds
safe cell). -/
theorem Inv_reveal {fuel : ℕ} {g g' : Game} {c : Cell} (hInv : Inv g)
    (hfc0 : g.firstclick = false)
    (hc : inb g.height g.width c = true) (hcm : g.board c ≠ -1)
    (h : Game.reveal fuel g c = some g') : Inv g' := by
  obtain ⟨hmb, hnd, hnum, hrev, hzc, hfr⟩ := hInv
  obtain ⟨hfr', hcmem⟩ := reveal_frame fuel g c g' h
  obtain ⟨hh, hw, hb, hm, hfl, hfc, hfa, hmono⟩ := hfr'
  refine ⟨?_, ?_, ?_, ?_, ?_, ?_⟩
  · intro d
    rw [hh, hw, hb, hm]
    exact hmb d
  · rw [hm]
    exact hnd
  · exact numbersOK_of_frame ⟨hh, hw, hb, hm, hfl, hfc, hfa, hmono⟩ hnum
  · intro d hd
    rw [hh, hw, hb]
    rcases reveal_reach fuel g c g' h d hd with hd' | hre
    · exact hrev d hd'
    · exact reach_safe hnum hc hcm hre
  · have hcl : closedMod [] g' :=
      reveal_closed fuel g c g' [] h ((zeroClosed_iff_closedMod_nil g).mp hzc)
    intro d hd h0 e he
    rcases hcl d hd h0 e he with he' | habs
    · exact he'
    · exact absurd habs (List.not_mem_nil e)
  · intro hfc'
    rw [hfc, hfc0] at hfc'
    cases hfc'

theorem Inv_init (h w mc : ℕ) (m0 : List Cell)
    (hv : Game.ValidInit h w mc m0) : Inv (Game.init h w m0) := by
  obtain ⟨hnd, hlen, hcnt, hinb⟩ := hv
  unfold Inv numbersOK zeroClosed Game.init
  dsimp only
  refine ⟨?_, hnd, ?_, ?_, ?_, ?_⟩
  · intro d
    rw [populate_mine_iff]
    constructor
    · intro hd
      refine ⟨hinb d hd, ?_⟩
      rw [if_pos hd]
    · rintro ⟨_, hbd⟩
      by_contra hdm
      rw [if_neg hdm] at hbd
      cases hbd
  · exact fun d hd hne => populate_ok h w _ d hd hne
  · intro d hd
    exact absurd hd (List.not_mem_nil d)
  · intro d hd
    exact absurd hd (List.not_mem_nil d)
  · intro _
    rfl

theorem sadd_eq_cons {l : List Cell} {c : Cell} (hc : c ∉ l) :
    sadd l c = c :: l := by
  unfold sadd
  exact if_neg hc

/-- `shift_mine` preserves the invariant, the mine count, and leaves
the clicked cell safe (on a fresh board with nothing revealed). -/
theorem Inv_shift {g g2 : Game} {c : Cell} (hInv : Inv g)
    (hfc : g.firstclick = false)
    (hc : inb g.height g.width c = true) (hm : g.board c = -1)
    (hrev0 : g.revealed = [])
    (h : Game.shift_mine g c = some g2) :
    Inv g2 ∧ g2.mines.length = g.mines.length ∧ g2.height = g.height ∧
      g2.width = g.width ∧ g2.board c ≠ -1 ∧ g2.revealed = g.revealed ∧
      g2.firstclick = g.firstclick ∧ g2.failed = g.failed := by
  obtain ⟨hmb, hnd, hnum, hrev, hzc, hfr⟩ := hInv
  unfold Game.shift_mine at h
  cases hfind : (gridList g.height g.width).find? (fun d => !decide (g.board d = -1)) with
  | none => rw [hfind] at h; cases h
  | some swap =>
    rw [hfind] at h
    cases h
    have hs1 : swap ∈ gridList g.height g.width := List.mem_of_find?_eq_some hfind
    have hs2 : g.board swap ≠ -1 := by
      have := List.find?_some hfind
      simp only [Bool.not_eq_true'] at this
      exact of_decide_eq_false this
    have hsinb : inb g.height g.width swap = true := mem_gridList.mp hs1
    have hswapc : swap ≠ c := fun he => hs2 (he ▸ hm)
    have hcmem : c ∈ g.mines := (hmb c).mpr ⟨hc, hm⟩
    have hswapnm : swap ∉ g.mines := fun hsm => hs2 ((hmb swap).mp hsm).2
    have hswapne : swap ∉ g.mines.erase c :=
      fun hse => hswapnm (List.mem_of_mem_erase hse)
    have hb1 : ∀ d : Cell, updFn (updFn g.board swap (-1)) c 0 d =
        if d = c then 0 else if d = swap then -1 else g.board d := by
      intro d
      unfold updFn
      by_cases hdc : d = c
      · simp [hdc]
      · simp [hdc]
    refine ⟨⟨?_, ?_, ?_, ?_, ?_, ?_⟩, ?_, rfl, rfl, ?_, rfl, rfl, rfl⟩
    · intro d
      show d ∈ sadd (g.mines.erase c) swap ↔ _ ∧ populate_board _ _ _ d = -1
      rw [populate_mine_iff, mem_sadd, hb1 d]
      by_cases hdc : d = c
      · subst hdc
        rw [if_pos rfl]
        constructor
        · rintro (rfl | hde)
          · exact absurd rfl hswapc
          · exact absurd (hnd.mem_erase_iff.mp hde).1 (fun hx => hx rfl)
        · rintro ⟨_, h0⟩
          cases h0
      · rw [if_neg hdc]
        by_cases hds : d = swap
        · subst hds
          rw [if_pos rfl]
          exact ⟨fun _ => ⟨hsinb, rfl⟩, fun _ => Or.inl rfl⟩
        · rw [if_neg hds]
          constructor
          · rintro (rfl | hde)
            · exact absurd rfl hds
            · exact (hmb d).mp (List.mem_of_mem_erase hde)
          · rintro ⟨hdi, hdb⟩
            exact Or.inr (hnd.mem_erase_iff.mpr ⟨hdc, (hmb d).mpr ⟨hdi, hdb⟩⟩)
    · exact sadd_nodup (hnd.erase c) swap
    · intro d hd hne
      exact populate_ok g.height g.width _ d hd hne
    · intro d hd
      rw [hrev0] at hd
      exact absurd hd (List.not_mem_nil d)
    · intro d hd
      rw [hrev0] at hd
      exact absurd hd (List.not_mem_nil d)
    · intro hfc'
      rw [hfc] at hfc'
      cases hfc'
    · show (sadd (g.mines.erase c) swap).length = g.mines.length
      rw [sadd_eq_cons hswapne, List.length_cons,
        List.length_erase_of_mem hcmem]
      have : 0 < g.mines.length := List.length_pos_of_mem hcmem
      omega
    · show populate_board _ _ _ c ≠ -1
      rw [Ne, populate_mine_iff, hb1 c, if_pos rfl]
      decide

/-- One driver move preserves the invariant, the mine count and the
dimensions. -/
theorem Inv_step {g g' : Game} (hInv : Inv g) (hstep : GameStep g g') :
    Inv g' ∧ g'.mines.length = g.mines.length ∧ g'.height = g.height ∧
      g'.width = g.width := by
  cases hstep with
  | flag c hc =>
    obtain ⟨hmb, hnd, hnum, hrev, hzc, hfr⟩ := hInv
    exact ⟨⟨hmb, hnd, hnum, hrev, hzc, hfr⟩, rfl, rfl, rfl⟩
  | click c _g2 hc hclick =>
    unfold Game.click at hclick
    cases hgfc : g.firstclick with
    | false =>
      rw [hgfc] at hclick
      simp only [Bool.false_eq_true, if_false] at hclick
      by_cases hm : g.board c = -1
      · rw [if_pos hm] at hclick
        cases hclick
        obtain ⟨hmb, hnd, hnum, hrev, hzc, hfr⟩ := hInv
        refine ⟨⟨hmb, hnd, hnum, hrev, hzc, ?_⟩, rfl, rfl, rfl⟩
        intro hfc'
        rw [hgfc] at hfc'
        cases hfc'
      · rw [if_neg hm] at hclick
        obtain ⟨hfr', _⟩ := reveal_frame _ _ _ _ hclick
        exact ⟨Inv_reveal hInv hgfc hc hm hclick,
          by rw [hfr'.2.2.2.1], hfr'.1, hfr'.2.1⟩
    | true =>
      rw [hgfc] at hclick
      simp only [if_true] at hclick
      have hinv1 : Inv { g with firstclick := false } := by
        obtain ⟨hmb, hnd, hnum, hrev, hzc, hfr⟩ := hInv
        refine ⟨hmb, hnd, hnum, hrev, hzc, ?_⟩
        intro hfc'
        cases hfc'
      by_cases hm : g.board c = -1
      · rw [if_pos hm] at hclick
        cases hshift : Game.shift_mine { g with firstclick := false } c with
        | none => rw [hshift] at hclick; cases hclick
        | some g2 =>
          rw [hshift] at hclick
          obtain ⟨hinv2, hlen2, hh2, hw2, hsafe2, hrev2, hfc2, _⟩ :=
            Inv_shift hinv1 rfl hc hm (hInv.2.2.2.2.2 hgfc) hshift
          have hclick2 : (if g2.board c = -1 then some { g2 with failed := true }
              else Game.reveal (Game.clickFuel g2) g2 c) = some g' := hclick
          rw [if_neg hsafe2] at hclick2
          obtain ⟨hfr', _⟩ := reveal_frame _ _ _ _ hclick2
          refine ⟨Inv_reveal hinv2 hfc2 (by rw [hh2, hw2]; exact hc) hsafe2 hclick2,
            ?_, ?_, ?_⟩
          · rw [hfr'.2.2.2.1, hlen2]
          · rw [hfr'.1, hh2]
          · rw [hfr'.2.1, hw2]
      · rw [if_neg hm] at hclick
        have hclick2 : (if g.board c = -1 then
              some { g with firstclick := false, failed := true }
            else Game.reveal (Game.clickFuel { g with firstclick := false })
              { g with firstclick := false } c) = some g' := hclick
        rw [if_neg hm] at hclick2
        obtain ⟨hfr', _⟩ := reveal_frame _ _ _ _ hclick2
        exact ⟨Inv_reveal hinv1 rfl hc hm hclick2,
          by rw [hfr'.2.2.2.1], hfr'.1, hfr'.2.1⟩

theorem shift_mine_eq {g : Game} {c swap : Cell}
    (hfind : (gridList g.height g.width).find?
      (fun d => !decide (g.board d = -1)) = some swap) :
    Game.shift_mine g c = some { g with
      board := populate_board g.height g.width (updFn (updFn g.board swap (-1)) c 0),
      mines := sadd (g.mines.erase c) swap } := by
  unfold Game.shift_mine
  rw [hfind]

/-! ## C7: mine count conservation -/

/-- C7: in every state reachable from a validly initialized game —
through any sequence of clicks (including a first-click relocation) and
flags — the mine set still has exactly the configured number of
(distinct) elements. -/
theorem mine_count_conservation (h w mc : ℕ) (m0 : List Cell) (g : Game)
    (hv : Game.ValidInit h w mc m0) (hr : GameReach (Game.init h w m0) g) :
    g.mines.length = mc ∧ g.mines.Nodup := by
  have hr' : Relation.ReflTransGen GameStep (Game.init h w m0) g := hr
  clear hr
  have key : Inv g ∧ g.mines.length = mc := by
    induction hr' with
    | refl => exact ⟨Inv_init h w mc m0 hv, hv.2.1⟩
    | tail hr2 hstep ih =>
      obtain ⟨hinv, hlen⟩ := ih
      obtain ⟨hinv', hlen', _, _⟩ := Inv_step hinv hstep
      exact ⟨hinv', by rw [hlen', hlen]⟩
  exact ⟨key.2, key.1.2.1⟩

/-- C7 witness: a 1×2 game with one mine, after one flag move. -/
theorem mine_count_conservation_witness :
    (Game.flag (Game.init 1 2 [(0, 0)]) (0, 1)).mines.length = 1 ∧
      (Game.flag (Game.init 1 2 [(0, 0)]) (0, 1)).mines.Nodup :=
  mine_count_conservation 1 2 1 [(0, 0)] _
    (by unfold Game.ValidInit; decide)
    (Relation.ReflTransGen.single (GameStep.flag _ (0, 1) (by decide)))

/-! ## C1: first-click safety -/

/-- C1: on a fresh game (first click pending, not failed, with fewer
mines than cells), clicking any on-board cell succeeds and never loses:
the mine, if present, is relocated to the first non-mine cell in
row-major order and the board renumbered before the reveal. -/
theorem first_click_safe (g : Game) (c : Cell) (hInv : Inv g)
    (hfc : g.firstclick = true) (hfail : g.failed = false)
    (hc : inb g.height g.width c = true)
    (hcnt : g.mines.length < g.height * g.width) :
    ∃ g', Game.click g c = some g' ∧ g'.failed = false ∧
      Game.outcome g' ≠ some false := by
  obtain ⟨hmb, hnd, hnum, hrev, hzc, hfr⟩ := hInv
  have hrev0 : g.revealed = [] := hfr hfc
  have hinv1 : Inv { g with firstclick := false } :=
    ⟨hmb, hnd, hnum, hrev, hzc, fun hx => by cases hx⟩
  have houtcome : ∀ g' : Game, g'.failed = false → Game.outcome g' ≠ some false := by
    intro g' hf
    unfold Game.outcome
    rw [hf]
    simp only [Bool.false_eq_true, if_false]
    split
    · intro hcontra; cases hcontra
    · intro hcontra; cases hcontra
  by_cases hm : g.board c = -1
  · -- the first click hits a mine: it is relocated first
    have hex : ∃ d ∈ gridList g.height g.width,
        (fun d => !decide (g.board d = -1)) d = true := by
      by_contra hno
      push_neg at hno
      have hall : ∀ d ∈ gridList g.height g.width, d ∈ g.mines := by
        intro d hd
        have hd2 := hno d hd
        simp only [Bool.not_eq_true, Bool.not_eq_false'] at hd2
        exact (hmb d).mpr ⟨mem_gridList.mp hd, of_decide_eq_true hd2⟩
      have hsub : gridF g.height g.width ⊆ g.mines.toFinset := by
        intro d hd
        exact List.mem_toFinset.mpr (hall d (List.mem_toFinset.mp hd))
      have h1 : (gridF g.height g.width).card ≤ g.mines.toFinset.card :=
        Finset.card_le_card hsub
      have h2 : g.mines.toFinset.card ≤ g.mines.length := g.mines.toFinset_card_le
      rw [gridF_card] at h1
      omega
    obtain ⟨swapEx, hmemEx, hpEx⟩ := hex
    have hfind : ∃ swap, (gridList g.height g.width).find?
        (fun d => !decide (g.board d = -1)) = some swap := by
      cases hfd : (gridList g.height g.width).find?
          (fun d => !decide (g.board d = -1)) with
      | none =>
        exact absurd hpEx (List.find?_eq_none.mp hfd swapEx hmemEx)
      | some s => exact ⟨s, rfl⟩
    obtain ⟨swap, hfind⟩ := hfind
    have hfind1 : (gridList ({ g with firstclick := false } : Game).height
        ({ g with firstclick := false } : Game).width).find?
        (fun d => !decide (({ g with firstclick := false } : Game).board d = -1))
        = some swap := hfind
    obtain ⟨g2, hshift2⟩ : ∃ g2,
        Game.shift_mine { g with firstclick := false } c = some g2 :=
      ⟨_, shift_mine_eq hfind1⟩
    obtain ⟨hinv2, hlen2, hh2, hw2, hsafe2, hrev2, hfc2, hfa2⟩ :=
      Inv_shift hinv1 rfl hc hm hrev0 hshift2
    obtain ⟨g', hrev'⟩ := reveal_some (Game.clickFuel g2) g2 c hinv2.2.2.1
      (by rw [hh2, hw2]; exact hc) hsafe2
      (by
        have := gridF_sdiff_card_le g2.height g2.width
          (insert c g2.revealed.toFinset)
        unfold Game.clickFuel
        omega)
    obtain ⟨hfr', _⟩ := reveal_frame _ _ _ _ hrev'
    have hfailed' : g'.failed = false := by
      rw [hfr'.2.2.2.2.2.2.1, hfa2]
      exact hfail
    refine ⟨g', ?_, hfailed', houtcome g' hfailed'⟩
    unfold Game.click
    rw [hfc]
    simp only [if_true]
    rw [if_pos hm, hshift2]
    show (if g2.board c = -1 then some { g2 with failed := true }
      else Game.reveal (Game.clickFuel g2) g2 c) = some g'
    rw [if_neg hsafe2]
    exact hrev'
  · -- the first click is already safe
    obtain ⟨g', hrev'⟩ := reveal_some (Game.clickFuel { g with firstclick := false })
      { g with firstclick := false } c hnum hc hm
      (by
        have := gridF_sdiff_card_le g.height g.width (insert c g.revealed.toFinset)
        unfold Game.clickFuel
        dsimp only
        omega)
    obtain ⟨hfr', _⟩ := reveal_frame _ _ _ _ hrev'
    have hfailed' : g'.failed = false := by
      rw [hfr'.2.2.2.2.2.2.1]
      exact hfail
    refine ⟨g', ?_, hfailed', houtcome g' hfailed'⟩
    unfold Game.click
    rw [hfc]
    simp only [if_true]
    rw [if_neg hm]
    show (if ({ g with firstclick := false } : Game).board c = -1 then
        some { g with firstclick := false, failed := true }
      else Game.reveal (Game.clickFuel { g with firstclick := false })
        { g with firstclick := false } c) = some g'
    rw [if_neg hm]
    exact hrev'

/-- C1 witness: a 1×2 game whose single mine sits exactly on the first
clicked cell `(0,0)`. -/
theorem first_click_safe_witness :
    ∃ g', Game.click (Game.init 1 2 [(0, 0)]) (0, 0) = some g' ∧
      g'.failed = false ∧ Game.outcome g' ≠ some false :=
  first_click_safe (Game.init 1 2 [(0, 0)]) (0, 0)
    (Inv_init 1 2 1 [(0, 0)] (by unfold Game.ValidInit; decide)) rfl rfl
    (by decide) (by decide)

/-! ## C4: cascade closure -/

theorem reach_subset_revealed {g' : Game} (hzc' : zeroClosed g') {c d : Cell}
    (hcmem : c ∈ g'.revealed)
    (hre : Reach g'.board g'.height g'.width c d) : d ∈ g'.revealed := by
  induction hre with
  | refl => exact hcmem
  | tail _ hstep ih => exact hzc' _ ih hstep.1 _ hstep.2

/-- C4: clicking a zero-count cell reveals exactly the old revealed set
plus the cells cascade-reachable from it — `Reach` holds of every cell
joined to the clicked cell by a chain of zero-count cells, including
each positive-count cell adjacent to such a chain (one final `zstep`
from a zero cell), and of nothing else. -/
theorem cascade_closure (g : Game) (c : Cell) (hInv : Inv g)
    (hc : inb g.height g.width c = true) (h0 : g.board c = 0) :
    ∃ g', Game.click g c = some g' ∧
      ∀ d : Cell, d ∈ g'.revealed ↔
        (d ∈ g.revealed ∨ Reach g.board g.height g.width c d) := by
  obtain ⟨hmb, hnd, hnum, hrev, hzc, hfrr⟩ := hInv
  have hm : g.board c ≠ -1 := by rw [h0]; decide
  have hfuel : 2 + (gridF g.height g.width \ (insert c g.revealed.toFinset)).card ≤
      g.height * g.width + 2 := by
    have := gridF_sdiff_card_le g.height g.width (insert c g.revealed.toFinset)
    omega
  cases hfc : g.firstclick with
  | false =>
    obtain ⟨g', hrev'⟩ := reveal_some (Game.clickFuel g) g c hnum hc hm hfuel
    obtain ⟨hfr', hcmem⟩ := reveal_frame _ _ _ _ hrev'
    have hzc' : zeroClosed g' := (zeroClosed_iff_closedMod_nil g').mpr
      (reveal_closed _ _ _ _ [] hrev' ((zeroClosed_iff_closedMod_nil g).mp hzc))
    refine ⟨g', ?_, ?_⟩
    · unfold Game.click
      rw [hfc]
      simp only [Bool.false_eq_true, if_false]
      show (if g.board c = -1 then some { g with failed := true }
        else Game.reveal (Game.clickFuel g) g c) = some g'
      rw [if_neg hm]
      exact hrev'
    · intro d
      constructor
      · intro hd
        exact reveal_reach _ _ _ _ hrev' d hd
      · rintro (hd | hre)
        · exact hfr'.2.2.2.2.2.2.2 d hd
        · refine reach_subset_revealed hzc' hcmem ?_
          rw [hfr'.2.2.1, hfr'.1, hfr'.2.1]
          exact hre
  | true =>
    obtain ⟨g', hrev'⟩ := reveal_some (Game.clickFuel { g with firstclick := false })
      { g with firstclick := false } c hnum hc hm hfuel
    obtain ⟨hfr', hcmem⟩ := reveal_frame _ _ _ _ hrev'
    have hzc' : zeroClosed g' := (zeroClosed_iff_closedMod_nil g').mpr
      (reveal_closed _ _ _ _ [] hrev'
        ((zeroClosed_iff_closedMod_nil { g with firstclick := false }).mp hzc))
    refine ⟨g', ?_, ?_⟩
    · unfold Game.click
      rw [hfc]
      simp only [if_true]
      rw [if_neg hm]
      show (if ({ g with firstclick := false } : Game).board c = -1 then
          some { g with firstclick := false, failed := true }
        else Game.reveal (Game.clickFuel { g with firstclick := false })
          { g with firstclick := false } c) = some g'
      rw [if_neg hm]
      exact hrev'
    · intro d
      constructor
      · intro hd
        exact reveal_reach _ _ _ _ hrev' d hd
      · rintro (hd | hre)
        · exact hfr'.2.2.2.2.2.2.2 d hd
        · refine reach_subset_revealed hzc' hcmem ?_
          rw [hfr'.2.2.1, hfr'.1, hfr'.2.1]
          exact hre

/-- C4 witness: a 1×3 game with the mine at `(0,2)`; clicking the
zero-count corner `(0,0)` must cascade. -/
theorem cascade_closure_witness :
    ∃ g', Game.click (Game.init 1 3 [(0, 2)]) (0, 0) = some g' ∧
      ∀ d : Cell, d ∈ g'.revealed ↔
        (d ∈ (Game.init 1 3 [(0, 2)]).revealed ∨
          Reach (Game.init 1 3 [(0, 2)]).board 1 3 (0, 0) d) :=
  cascade_closure (Game.init 1 3 [(0, 2)]) (0, 0)
    (Inv_init 1 3 1 [(0, 2)] (by unfold Game.ValidInit; decide)) (by decide)
    (by decide)

/-! ## C3: win condition -/

/-- C3 (amended): `outcome()` reports `Won` iff the game has not failed
and the flagged set equals the mine set.  (`seq` is Python set
equality.) -/
theorem outcome_won_iff (g : Game) :
    Game.outcome g = some true ↔ (g.failed = false ∧ seq g.flags g.mines = true) := by
  unfold Game.outcome
  by_cases hf : g.failed
  · simp [hf]
  · simp only [Bool.not_eq_true] at hf
    by_cases hs : seq g.flags g.mines = true <;> simp [hf, hs]

/-- C3 counterexample: a reachable state (click safe cell, click a
mine, flag the mine) whose flag set equals its mine set while the
outcome is not `Won` (it is `Lost`). -/
theorem outcome_won_iff_cex :
    seq c3g3.flags c3g3.mines = true ∧ Game.outcome c3g3 ≠ some true := by decide

/-! ## C5: over-flagging -/

/-- C5 (amended): the over-flag check compares the flag count before
the new flag is added, so a loss is only guaranteed once the flag count
exceeds the mine count by more than one; at that point `failed` is
true after the `flag` call. -/
theorem flag_overflag_late (g : Game) (c : Cell)
    (h : (Game.flag g c).mines.length + 1 < (Game.flag g c).flags.length) :
    (Game.flag g c).failed = true := by
  have hlen : (Game.flag g c).flags.length ≤ g.flags.length + 1 :=
    length_sadd_le g.flags c
  have hmines : (Game.flag g c).mines = g.mines := rfl
  rw [hmines] at h
  have hcmp : g.mines.length < g.flags.length := by omega
  unfold Game.flag
  simp [hcmp]

/-- C5 witness for the amended theorem: a third wrong flag (on a board
with a single mine) trips the check. -/
theorem flag_overflag_late_witness : (Game.flag c5g2 (0, 3)).failed = true :=
  flag_overflag_late c5g2 (0, 3) (by decide)

/-- C5 counterexample to the claim as stated: after the second wrong
flag the flag count (2) exceeds the mine count (1) but `failed` is
still false. -/
theorem flag_overflag_cex :
    c5g2.mines.length < c5g2.flags.length ∧ c5g2.failed = false := by decide

/-! ## C10: terminal outcomes are not absorbing -/

/-- C10: `click` and `flag` ignore `failed`/`outcome()`.  Clicking a
mine (not as first click) always sets `failed` and makes the outcome
`Lost` — even from a `Won` state — and `flag` always marks the cell
and extends the flag set — even after a loss. -/
theorem terminal_not_absorbing (g : Game) (c : Cell)
    (hfc : g.firstclick = false) (hm : g.board c = -1) :
    (∃ g', Game.click g c = some g' ∧ g'.failed = true ∧ Game.outcome g' = some false) ∧
    (Game.flag g c).vboard c = -3 ∧ c ∈ (Game.flag g c).flags := by
  refine ⟨⟨{ g with failed := true }, ?_, rfl, ?_⟩, ?_, ?_⟩
  · unfold Game.click
    simp [hfc, hm]
  · unfold Game.outcome
    simp
  · show updFn g.vboard c (-3) c = -3
    unfold updFn
    simp
  · exact sadd_self_mem g.flags c

/-- C10 witness: from the winning state `c10g2` (outcome `Won`),
clicking the mine `(0,0)` flips the outcome to `Lost`, and flagging
still mutates the board. -/
theorem terminal_not_absorbing_witness :
    Game.outcome c10g2 = some true ∧
      ((∃ g', Game.click c10g2 (0, 0) = some g' ∧ g'.failed = true ∧
          Game.outcome g' = some false) ∧
        (Game.flag c10g2 (0, 0)).vboard (0, 0) = -3 ∧
        (0, 0) ∈ (Game.flag c10g2 (0, 0)).flags) :=
  ⟨by decide, terminal_not_absorbing c10g2 (0, 0) (by decide) (by decide)⟩

/-! ## C9: the deduction pass -/

theorem deduceStep_queues (s : SolverSt) (c : Cell) :
    (Solver.deduceStep s c).to_click = s.to_click ++ dcPart s c ∧
    (Solver.deduceStep s c).to_flag = s.to_flag ++ dfPart s c ∧
    (Solver.deduceStep s c).vboard = s.vboard ∧
    (Solver.deduceStep s c).height = s.height ∧
    (Solver.deduceStep s c).width = s.width := by
  unfold Solver.deduceStep dcPart dfPart
  by_cases h1 : ((Solver.get_neighbors s c (-3)).length : ℤ) = Solver.get s c
  · simp [h1]
  · by_cases h2 : ((Solver.get_neighbors s c (-3)).length : ℤ) +
        ((Solver.get_neighbors s c (-2)).length : ℤ) = Solver.get s c <;>
      simp [h1, h2]

theorem dcPart_congr {s t : SolverSt} (hv : s.vboard = t.vboard)
    (hh : s.height = t.height) (hw : s.width = t.width) (c : Cell) :
    dcPart s c = dcPart t c ∧ dfPart s c = dfPart t c := by
  have hg : ∀ k : ℤ, Solver.get_neighbors s c k = Solver.get_neighbors t c k := by
    intro k
    unfold Solver.get_neighbors Solver.statusP Solver.get
    rw [hv, hh, hw]
  have hget : Solver.get s c = Solver.get t c := by
    unfold Solver.get
    rw [hv]
  constructor
  · unfold dcPart
    rw [hg, hg, hget]
  · unfold dfPart
    rw [hg, hg, hget]

theorem foldl_deduceStep (L : List Cell) : ∀ s : SolverSt,
    (L.foldl Solver.deduceStep s).to_click = s.to_click ++ L.flatMap (dcPart s) ∧
    (L.foldl Solver.deduceStep s).to_flag = s.to_flag ++ L.flatMap (dfPart s) ∧
    (L.foldl Solver.deduceStep s).vboard = s.vboard ∧
    (L.foldl Solver.deduceStep s).height = s.height ∧
    (L.foldl Solver.deduceStep s).width = s.width := by
  induction L with
  | nil => intro s; simp
  | cons c L ih =>
    intro s
    obtain ⟨q1, q2, q3, q4, q5⟩ := deduceStep_queues s c
    obtain ⟨h1, h2, h3, h4, h5⟩ := ih (Solver.deduceStep s c)
    have hcong := fun d => dcPart_congr (s := Solver.deduceStep s c) (t := s) q3 q4 q5 d
    refine ⟨?_, ?_, ?_, ?_, ?_⟩
    · rw [List.foldl_cons, h1, q1, List.flatMap_cons, List.append_assoc]
      congr 1
      congr 1
      exact List.flatMap_congr (fun d _ => (hcong d).1)
    · rw [List.foldl_cons, h2, q2, List.flatMap_cons, List.append_assoc]
      congr 1
      congr 1
      exact List.flatMap_congr (fun d _ => (hcong d).2)
    · rw [List.foldl_cons, h3, q3]
    · rw [List.foldl_cons, h4, q4]
    · rw [List.foldl_cons, h5, q5]

theorem deduce_vboard (s : SolverSt) :
    (Solver.deduce s).vboard = s.vboard ∧ (Solver.deduce s).height = s.height ∧
      (Solver.deduce s).width = s.width := by
  obtain ⟨_, _, h3, h4, h5⟩ := foldl_deduceStep (Solver.get_cells s 1) s
  exact ⟨h3, h4, h5⟩

/-! ## C8: no redundant targets -/

/-- C8 (amended): every *click* action returned by
`DeductionSolver.click` targets a cell still unknown (`-2`) on the
board passed in — queued clicks are re-filtered by `revise_to_click`
and the random fallback draws from the unknown cells.  (The
corresponding guarantee fails for flag actions, see
`clickD_flag_target_cex`.) -/
theorem clickD_click_target_unknown (s : SolverSt) (vb : Cell → ℤ)
    (choose : List Cell → Cell)
    (hch : ∀ l : List Cell, l ≠ [] → choose l ∈ l) (c : Cell)
    (h : (Solver.clickD s vb choose).1 = some (true, c)) :
    vb c = -2 := by
  unfold Solver.clickD at h
  dsimp only at h
  set s1 : SolverSt := Solver.deduce { s with random := false, vboard := vb }
    with hs1
  obtain ⟨hv1, hh1, hw1⟩ := deduce_vboard { s with random := false, vboard := vb }
  cases hlast : (Solver.revise_to_click s1).to_click.getLast? with
  | some c' =>
    rw [hlast] at h
    simp only [Option.some.injEq, Prod.mk.injEq, true_and] at h
    obtain rfl := h
    have hmem : c' ∈ (Solver.revise_to_click s1).to_click :=
      List.mem_of_mem_getLast? hlast
    unfold Solver.revise_to_click at hmem
    have hmem2 := List.mem_filter.mp hmem
    have : Solver.get s1 c' = -2 := of_decide_eq_true hmem2.2
    unfold Solver.get at this
    rw [hv1] at this
    exact this
  | none =>
    rw [hlast] at h
    cases hflast : (Solver.revise_to_click s1).to_flag.getLast? with
    | some c' =>
      rw [hflast] at h
      simp only [Option.some.injEq, Prod.mk.injEq, Bool.false_eq_true,
        false_and] at h
    | none =>
      rw [hflast] at h
      cases hcells : Solver.get_cells
          { Solver.revise_to_click s1 with firstclick := false } (-2) with
      | nil => rw [hcells] at h; cases h
      | cons x xs =>
        rw [hcells] at h
        simp only [Option.some.injEq, Prod.mk.injEq, true_and] at h
        have hcc : choose (x :: xs) = c := h
        have hmem : c ∈ (x :: xs) := hcc ▸ hch (x :: xs) (by simp)
        rw [← hcells] at hmem
        unfold Solver.get_cells at hmem
        have hmem2 := List.mem_filter.mp hmem
        have hst : Solver.statusP
            { Solver.revise_to_click s1 with firstclick := false } (-2) c = true :=
          hmem2.2
        unfold Solver.statusP Solver.get at hst
        rw [if_neg (by decide)] at hst
        have : ({ Solver.revise_to_click s1 with firstclick := false } : SolverSt).vboard c = -2 :=
          of_decide_eq_true hst
        rw [show ({ Solver.revise_to_click s1 with firstclick := false } : SolverSt).vboard
            = s1.vboard from rfl, hv1] at this
        exact this

theorem chooseHead_mem : ∀ l : List Cell, l ≠ [] → chooseHead l ∈ l := by
  intro l hl
  cases l with
  | nil => cases hl rfl
  | cons x xs => exact List.mem_cons_self x xs

/-- C8 witness for the amended theorem: the first call of the
deduction-solver trace returns a click on `(0,0)`, unknown on the fresh
board. -/
theorem clickD_click_target_unknown_witness : c8g0.vboard ((0 : ℤ), (0 : ℤ)) = -2 :=
  clickD_click_target_unknown c8s0 c8g0.vboard chooseHead chooseHead_mem
    ((0 : ℤ), (0 : ℤ)) (by decide)

/-- C8 counterexample to the claim as stated: on the fourth call of a
deduction-solver game (2×6 board, mines at `(0,3)`, `(1,3)`, `(0,5)`),
the solver returns a flag action on `(0,3)`, which is already flagged
(`-3`) on the board snapshot passed in, while the game is still in
progress — `to_flag` is never re-filtered and the deduction pass queues
duplicates. -/
theorem clickD_flag_target_cex :
    c8r4.1 = some (false, ((0 : ℤ), (3 : ℤ))) ∧ c8g3.vboard (0, 3) = -3 ∧
      Game.outcome c8g3 = none := by decide

/-! ## C6: the enumeration engine -/

/-- C6: at the failing input `c6s` (visible board `[[-2,-2,-2],[1,2,1]]`,
two mines, no flags) the enumeration engine is genuinely invoked — the
deduction pass queues nothing and the combination count is below
`MAX_COMBS` — exactly one candidate board survives, on it `(0,0)` is a
mine and `(0,1)` is not, yet `probs.get()` returns `(0.0, (0,0))`: the
code counts the boards where a cell holds `0` (no mine) as its `mines`
tally, so the minimum-priority cell is the one *most* likely to be a
mine, not least. -/
theorem enumChoice_c6s_eval : Solver.enumChoice c6s = some (0, ((0 : ℤ), (0 : ℤ))) := by
  have hcells : Solver.get_cells c6s (-2) = [(0, 0), (0, 1), (0, 2)] := by decide
  have hn0 : (Solver.surviving c6s).countP
      (fun b => decide (b ((0 : ℤ), (0 : ℤ)) = 0)) = 0 := by decide
  have hn1 : (Solver.surviving c6s).countP
      (fun b => decide (b ((0 : ℤ), (1 : ℤ)) = 0)) = 1 := by decide
  have hn2 : (Solver.surviving c6s).countP
      (fun b => decide (b ((0 : ℤ), (2 : ℤ)) = 0)) = 0 := by decide
  have hlen : (Solver.surviving c6s).length = 1 := by decide
  unfold Solver.enumChoice Solver.enumerate_probs
  dsimp only
  rw [hcells]
  simp only [List.map_cons, List.map_nil]
  rw [hn0, hn1, hn2, hlen]
  unfold Solver.minEntry
  simp only [List.foldl_cons, List.foldl_nil, Solver.pairLt]
  norm_num

theorem enumerate_probs_cex :
    Solver.enumChoice c6s = some (0, ((0 : ℤ), (0 : ℤ))) ∧
    (Solver.surviving c6s).all (fun b => decide (b ((0 : ℤ), (0 : ℤ)) = -1)) = true ∧
    (Solver.surviving c6s).all (fun b => decide (b ((0 : ℤ), (1 : ℤ)) ≠ -1)) = true ∧
    (Solver.surviving c6s).length = 1 ∧
    (Solver.deduce c6s).to_click = [] ∧ (Solver.deduce c6s).to_flag = [] ∧
    Nat.choose (Solver.get_cells c6s (-2)).length
      (((c6s.mine_count : ℤ) -
        (((Solver.get_cells c6s (-3)).length : ℕ) : ℤ)).toNat) < MAX_COMBS := by
  refine ⟨enumChoice_c6s_eval, ?_, ?_, ?_, ?_, ?_, ?_⟩ <;> decide

/-- C9: one deduction pass queues, for each positively-numbered cell in
scan order, exactly its unknown neighbors — for clicking when its
flagged-neighbor count equals its number, for flagging when flagged
plus unknown neighbors equal its number — and nothing else. -/
theorem deduce_spec (s : SolverSt) :
    (Solver.deduce s).to_click = s.to_click ++ (Solver.get_cells s 1).flatMap (dcPart s) ∧
    (Solver.deduce s).to_flag = s.to_flag ++ (Solver.get_cells s 1).flatMap (dfPart s) := by
  obtain ⟨h1, h2, _, _, _⟩ := foldl_deduceStep (Solver.get_cells s 1) s
  exact ⟨h1, h2⟩

/-! ## CSP store soundness (C2) -/

theorem accurate_full {Phi : Set Assign} {S : List Cell} {n : ℤ}
    (hacc : AccurateC Phi S n) (hlen : (S.length : ℤ) = n) :
    ∀ m ∈ S, EntMine Phi m := by
  intro m hm M hM
  have h1 : (S.countP M : ℤ) = (S.length : ℤ) := (hacc M hM).trans hlen.symm
  have h2 : S.countP M = S.length := by exact_mod_cast h1
  exact List.countP_eq_length.mp h2 m hm

theorem accurate_zero {Phi : Set Assign} {S : List Cell}
    (hacc : AccurateC Phi S 0) : ∀ f ∈ S, EntSafe Phi f := by
  intro f hf M hM
  have h1 : (S.countP M : ℤ) = 0 := hacc M hM
  have h2 : S.countP M = 0 := by exact_mod_cast h1
  have h3 := List.countP_eq_zero.mp h2 f hf
  exact Bool.not_eq_true _ ▸ h3

theorem countP_erase_true {m : Cell} {M : Assign} (hMm : M m = true) :
    ∀ S : List Cell, m ∈ S → S.countP M = (S.erase m).countP M + 1 := by
  intro S
  induction S with
  | nil => intro h; exact absurd h (List.not_mem_nil m)
  | cons a S ih =>
    intro hm
    rw [List.erase_cons]
    by_cases hae : a = m
    · subst hae
      rw [if_pos (by simp), List.countP_cons, hMm, if_pos rfl]
    · rw [if_neg (by simp [hae]), List.countP_cons, List.countP_cons]
      have hmS : m ∈ S := by
        rcases List.mem_cons.mp hm with h | h
        · exact absurd h.symm hae
        · exact h
      rw [ih hmS]
      omega

theorem countP_erase_false {m : Cell} {M : Assign} (hMm : M m = false) :
    ∀ S : List Cell, m ∈ S → S.countP M = (S.erase m).countP M := by
  intro S
  induction S with
  | nil => intro h; exact absurd h (List.not_mem_nil m)
  | cons a S ih =>
    intro hm
    rw [List.erase_cons]
    by_cases hae : a = m
    · subst hae
      rw [if_pos (by simp), List.countP_cons, hMm, if_neg Bool.false_ne_true]
      omega
    · rw [if_neg (by simp [hae]), List.countP_cons, List.countP_cons]
      have hmS : m ∈ S := by
        rcases List.mem_cons.mp hm with h | h
        · exact absurd h.symm hae
        · exact h
      rw [ih hmS]

theorem removeMineCs_inv {Phi : Set Assign} {hh ww : ℕ} {m : Cell}
    (hm : EntMine Phi m) {cs : List (Cell × List Cell × ℤ)}
    (hcs : ∀ e ∈ cs, AccurateC Phi e.2.1 e.2.2 ∧ e.2.1.Nodup) :
    ∀ e ∈ Csp.removeMineCs hh ww m cs, AccurateC Phi e.2.1 e.2.2 ∧ e.2.1.Nodup := by
  intro e' he'
  unfold Csp.removeMineCs at he'
  obtain ⟨e, hemem, heq⟩ := List.mem_map.mp he'
  obtain ⟨hacc, hnd⟩ := hcs e hemem
  by_cases hcond :
      decide (e.1 ∈ neighborsBox m hh ww) = true ∧ e.2.1.length ≠ 0 ∧ m ∈ e.2.1
  · rw [if_pos hcond] at heq
    subst heq
    refine ⟨?_, hnd.erase m⟩
    intro M hM
    have hcount := countP_erase_true (hm M hM) e.2.1 hcond.2.2
    have hbase := hacc M hM
    dsimp only
    omega
  · rw [if_neg hcond] at heq
    subst heq
    exact ⟨hacc, hnd⟩

theorem removeFreeCs_inv {Phi : Set Assign} {hh ww : ℕ} {f : Cell}
    (hf : EntSafe Phi f) {cs : List (Cell × List Cell × ℤ)}
    (hcs : ∀ e ∈ cs, AccurateC Phi e.2.1 e.2.2 ∧ e.2.1.Nodup) :
    ∀ e ∈ Csp.removeFreeCs hh ww f cs, AccurateC Phi e.2.1 e.2.2 ∧ e.2.1.Nodup := by
  intro e' he'
  unfold Csp.removeFreeCs at he'
  obtain ⟨e, hemem, heq⟩ := List.mem_map.mp he'
  obtain ⟨hacc, hnd⟩ := hcs e hemem
  by_cases hcond : decide (e.1 ∈ neighborsBox f hh ww) = true ∧ f ∈ e.2.1
  · rw [if_pos hcond] at heq
    subst heq
    refine ⟨?_, hnd.erase f⟩
    intro M hM
    have hcount := countP_erase_false (hf M hM) e.2.1 hcond.2
    have hbase := hacc M hM
    dsimp only
    omega
  · rw [if_neg hcond] at heq
    subst heq
    exact ⟨hacc, hnd⟩

theorem lookupC_mem {cs : List (Cell × List Cell × ℤ)} {k : Cell}
    {S : List Cell} {n : ℤ} (h : Csp.lookupC cs k = some (S, n)) :
    (k, S, n) ∈ cs := by
  unfold Csp.lookupC at h
  cases hfd : cs.find? (fun e => decide (e.1 = k)) with
  | none => rw [hfd] at h; exact absurd h (by simp)
  | some e =>
    rw [hfd] at h
    have hmem := List.mem_of_find?_eq_some hfd
    have hpk := List.find?_some hfd
    have hek : e.1 = k := by simpa using hpk
    have he2 : e.2 = (S, n) := by
      have := h
      simpa using this
    have : e = (k, S, n) := by
      obtain ⟨e1, e2⟩ := e
      dsimp only at hek he2
      rw [hek, he2]
    rw [this] at hmem
    exact hmem

theorem popC_sub {cs : List (Cell × List Cell × ℤ)} {k : Cell} :
    ∀ e ∈ Csp.popC cs k, e ∈ cs :=
  fun e he => (List.mem_filter.mp he).1

theorem flagFold_inv {Phi : Set Assign} (L : List Cell) :
    ∀ s : CspState, (∀ m ∈ L, EntMine Phi m) → StoreInv Phi s →
    StoreInv Phi (L.foldl (fun s2 m =>
      let s3 : CspState := { s2 with to_flag := s2.to_flag ++ [m] }
      { s3 with constraints := Csp.removeMineCs s3.height s3.width m s3.constraints }) s) := by
  induction L with
  | nil => intro s _ hI; exact hI
  | cons m L ih =>
    intro s hL hI
    rw [List.foldl_cons]
    refine ih _ (fun x hx => hL x (List.mem_cons_of_mem m hx)) ?_
    obtain ⟨hC, hF, hK, hN⟩ := hI
    refine ⟨removeMineCs_inv (hL m (List.mem_cons_self m L)) hC, ?_, hK, hN⟩
    intro c hc
    rcases List.mem_append.mp hc with h | h
    · exact hF c h
    · rw [List.mem_singleton.mp h]
      exact hL m (List.mem_cons_self m L)

theorem clickFold_inv {Phi : Set Assign} (L : List Cell) :
    ∀ s : CspState, (∀ f ∈ L, EntSafe Phi f) → StoreInv Phi s →
    StoreInv Phi (L.foldl (fun s2 f =>
      let s3 : CspState := { s2 with to_click := s2.to_click ++ [f] }
      { s3 with constraints := Csp.removeFreeCs s3.height s3.width f s3.constraints }) s) := by
  induction L with
  | nil => intro s _ hI; exact hI
  | cons f L ih =>
    intro s hL hI
    rw [List.foldl_cons]
    refine ih _ (fun x hx => hL x (List.mem_cons_of_mem f hx)) ?_
    obtain ⟨hC, hF, hK, hN⟩ := hI
    refine ⟨removeFreeCs_inv (hL f (List.mem_cons_self f L)) hC, hF, ?_, hN⟩
    intro c hc
    rcases List.mem_append.mp hc with h | h
    · exact hK c h
    · rw [List.mem_singleton.mp h]
      exact hL f (List.mem_cons_self f L)

theorem tfStep_inv {Phi : Set Assign} {s : CspState} (hI : StoreInv Phi s)
    (k : Cell) : StoreInv Phi (Csp.tfStep s k) := by
  unfold Csp.tfStep
  cases hlk : Csp.lookupC s.constraints k with
  | none => exact hI
  | some v =>
    obtain ⟨S, n⟩ := v
    dsimp only
    have hpop : StoreInv Phi
        { s with constraints := Csp.popC s.constraints k, deleted := s.deleted ++ [k] } :=
      ⟨fun e he => hI.1 e (popC_sub e he), hI.2.1, hI.2.2.1, hI.2.2.2⟩
    by_cases heq : (S.length : ℤ) = n
    · rw [if_pos heq]
      have hallm : ∀ m ∈ S, EntMine Phi m :=
        accurate_full (hI.1 _ (lookupC_mem hlk)).1 heq
      by_cases hz : S.length = 0
      · rw [if_pos hz]
        exact hpop
      · rw [if_neg hz]
        exact flagFold_inv S _ hallm hpop
    · rw [if_neg heq]
      exact hI

theorem tcStep_inv {Phi : Set Assign} {s : CspState} (hI : StoreInv Phi s)
    (k : Cell) : StoreInv Phi (Csp.tcStep s k) := by
  unfold Csp.tcStep
  cases hlk : Csp.lookupC s.constraints k with
  | none => exact hI
  | some v =>
    obtain ⟨S, n⟩ := v
    dsimp only
    have hpop : StoreInv Phi
        { s with constraints := Csp.popC s.constraints k, deleted := s.deleted ++ [k] } :=
      ⟨fun e he => hI.1 e (popC_sub e he), hI.2.1, hI.2.2.1, hI.2.2.2⟩
    by_cases heq : n = 0
    · rw [if_pos heq]
      have halls : ∀ f ∈ S, EntSafe Phi f :=
        accurate_zero (heq ▸ (hI.1 _ (lookupC_mem hlk)).1)
      by_cases hz : S.length = 0
      · rw [if_pos hz]
        exact hpop
      · rw [if_neg hz]
        exact clickFold_inv S _ halls hpop
    · rw [if_neg heq]
      exact hI

theorem foldl_preserve {α : Type} (Phi : Set Assign) (f : CspState → α → CspState)
    (hf : ∀ (t : CspState) (a : α), StoreInv Phi t → StoreInv Phi (f t a)) :
    ∀ (L : List α) (s : CspState), StoreInv Phi s → StoreInv Phi (L.foldl f s) := by
  intro L
  induction L with
  | nil => intro s hI; exact hI
  | cons a L ih =>
    intro s hI
    rw [List.foldl_cons]
    exact ih _ (hf s a hI)

theorem trivialLoop_inv {Phi : Set Assign} :
    ∀ (fuel : ℕ) (mode : Bool) (s : CspState),
    StoreInv Phi s → StoreInv Phi (Csp.trivialLoop fuel mode s) := by
  intro fuel
  induction fuel with
  | zero => intro mode s hI; exact hI
  | succ fuel ih =>
    intro mode s hI
    have h1 : StoreInv Phi
        (if mode then (s.constraints.map (fun e => e.1)).foldl Csp.tcStep s
         else (s.constraints.map (fun e => e.1)).foldl Csp.tfStep s) := by
      cases mode with
      | false =>
        rw [if_neg (by simp)]
        exact foldl_preserve Phi Csp.tfStep (fun t a ht => tfStep_inv ht a) _ s hI
      | true =>
        rw [if_pos rfl]
        exact foldl_preserve Phi Csp.tcStep (fun t a ht => tcStep_inv ht a) _ s hI
    simp only [Csp.trivialLoop]
    split
    · exact ih true _ h1
    · exact ih false _ h1
    · exact h1

theorem subset_excess_safe {Phi : Set Assign} {S1 S2 : List Cell} {n : ℤ}
    (h1 : AccurateC Phi S1 n) (h2 : AccurateC Phi S2 n)
    (hnd1 : S1.Nodup) (hnd2 : S2.Nodup)
    (hsub : ∀ x ∈ S1, x ∈ S2) {f : Cell} (hf2 : f ∈ S2) (hf1 : f ∉ S1) :
    EntSafe Phi f := by
  intro M hM
  have e1 : (S1.countP M : ℤ) = n := h1 M hM
  have e2 : (S2.countP M : ℤ) = n := h2 M hM
  have ecount : S1.countP M = S2.countP M := by omega
  by_contra hMf
  have hMf' : M f = true := by
    cases hfv : M f
    · exact absurd hfv hMf
    · rfl
  have key : ∀ S : List Cell, S.Nodup → (S.filter M).toFinset.card = S.countP M := by
    intro S hnd
    rw [List.toFinset_card_of_nodup (hnd.filter M), List.countP_eq_length_filter]
  have hsubF : (S1.filter M).toFinset ⊆ (S2.filter M).toFinset := by
    intro x hx
    rw [List.mem_toFinset, List.mem_filter] at hx
    rw [List.mem_toFinset, List.mem_filter]
    exact ⟨hsub x hx.1, hx.2⟩
  have hFeq : (S1.filter M).toFinset = (S2.filter M).toFinset :=
    Finset.eq_of_subset_of_card_le hsubF
      (le_of_eq (by rw [key S2 hnd2, key S1 hnd1, ecount]))
  have hfF2 : f ∈ (S2.filter M).toFinset := by
    rw [List.mem_toFinset, List.mem_filter]
    exact ⟨hf2, hMf'⟩
  rw [← hFeq, List.mem_toFinset, List.mem_filter] at hfF2
  exact hf1 hfF2.1

theorem clickAll_inv {Phi : Set Assign} (F : List Cell) (s : CspState)
    (hF : ∀ f ∈ F, EntSafe Phi f) (hI : StoreInv Phi s) :
    StoreInv Phi (Csp.clickAll F s) :=
  clickFold_inv F s hF hI

theorem crStep_inv {Phi : Set Assign} {s : CspState} (hI : StoreInv Phi s)
    (c1 c2 : Cell) : StoreInv Phi (Csp.crStep s c1 c2) := by
  unfold Csp.crStep
  by_cases hne : c1 ≠ c2
  · rw [if_pos hne]
    cases hl1 : Csp.lookupC s.constraints c1 with
    | none => exact hI
    | some v1 =>
      obtain ⟨S1, n1⟩ := v1
      cases hl2 : Csp.lookupC s.constraints c2 with
      | none => exact hI
      | some v2 =>
        obtain ⟨S2, n2⟩ := v2
        dsimp only
        by_cases hcond : n1 = n2 ∧ ¬ seq S1 S2 = true
        · rw [if_pos hcond]
          obtain ⟨hacc1, hnd1⟩ := hI.1 _ (lookupC_mem hl1)
          obtain ⟨hacc2, hnd2⟩ := hI.1 _ (lookupC_mem hl2)
          have hacc2n1 : AccurateC Phi S2 n1 := by rw [hcond.1]; exact hacc2
          by_cases hsub1 : S1.all (fun x => decide (x ∈ S2)) = true
          · rw [if_pos hsub1]
            refine clickAll_inv _ s ?_ hI
            intro f hf
            obtain ⟨hfS2, hfd⟩ := List.mem_filter.mp hf
            have hfnS1 : f ∉ S1 := by simpa using hfd
            exact subset_excess_safe hacc1 hacc2n1 hnd1 hnd2
              (fun x hx => of_decide_eq_true (List.all_eq_true.mp hsub1 x hx)) hfS2 hfnS1
          · rw [if_neg hsub1]
            by_cases hsub2 : S2.all (fun x => decide (x ∈ S1)) = true
            · rw [if_pos hsub2]
              refine clickAll_inv _ s ?_ hI
              intro f hf
              obtain ⟨hfS1, hfd⟩ := List.mem_filter.mp hf
              have hfnS2 : f ∉ S2 := by simpa using hfd
              exact subset_excess_safe hacc2n1 hacc1 hnd2 hnd1
                (fun x hx => of_decide_eq_true (List.all_eq_true.mp hsub2 x hx)) hfS1 hfnS2
            · rw [if_neg hsub2]
              exact hI
        · rw [if_neg hcond]
          exact hI
  · rw [if_neg hne]
    exact hI

theorem crRescanAux_inv {Phi : Set Assign} (f : CspState → CspState)
    (hf : ∀ t : CspState, StoreInv Phi t → StoreInv Phi (f t)) (keys : List Cell)
    (s : CspState) (hI : StoreInv Phi s) :
    StoreInv Phi (Csp.crRescanAux f keys s) := by
  unfold Csp.crRescanAux
  refine foldl_preserve Phi _ ?_ keys s hI
  intro t c1 ht
  dsimp only
  by_cases hc : keys.any (fun c2 => Csp.crCond t c1 c2) = true
  · rw [if_pos hc]
    exact hf t ht
  · rw [if_neg hc]
    exact ht

theorem constraintsreduction_inv {Phi : Set Assign} :
    ∀ (fuel : ℕ) (s : CspState), StoreInv Phi s →
    StoreInv Phi (Csp.constraintsreduction fuel s) := by
  intro fuel
  induction fuel with
  | zero => intro s hI; exact hI
  | succ fuel ih =>
    intro s hI
    have h1 : StoreInv Phi ((s.constraints.map (fun e => e.1)).foldl
        (fun sa c1 => (s.constraints.map (fun e => e.1)).foldl
          (fun sb c2 => Csp.crStep sb c1 c2) sa) s) :=
      foldl_preserve Phi _ (fun t c1 ht =>
        foldl_preserve Phi _ (fun u c2 hu => crStep_inv hu c1 c2) _ t ht) _ s hI
    have h2 := trivialLoop_inv fuel false _ h1
    exact crRescanAux_inv _ (fun t ht => ih t ht) _ _ h2

theorem prune_inv {Phi : Set Assign} {s : CspState} (hI : StoreInv Phi s) :
    StoreInv Phi (Csp.pruneunknownneighs s) := by
  obtain ⟨hC, hF, hK, hN⟩ := hI
  refine ⟨?_, hF, hK, hN⟩
  intro e' he'
  unfold Csp.pruneunknownneighs at he'
  dsimp only at he'
  obtain ⟨e, hemem, heq⟩ := List.mem_map.mp he'
  subst heq
  obtain ⟨hacc, hnd⟩ := hC e hemem
  refine ⟨?_, hnd.filter _⟩
  intro M hM
  dsimp only
  have hcnt : (e.2.1.filter (fun u => !decide (u ∈ s.newfreecells))).countP M =
      e.2.1.countP M := by
    rw [List.countP_filter]
    refine List.countP_congr ?_
    intro x hx
    by_cases hxN : x ∈ s.newfreecells
    · have hsafe : M x = false := hN x hxN M hM
      simp [hsafe]
    · simp [hxN]
  rw [hcnt]
  exact hacc M hM

theorem count_partition (M : Assign) (vb : Cell → ℤ) :
    ∀ l : List Cell,
    (∀ e ∈ l, (0 ≤ vb e → M e = false) ∧ (vb e = -3 → M e = true) ∧
      (vb e = -2 ∨ vb e = -3 ∨ 0 ≤ vb e)) →
    l.countP M = (l.filter (fun e => decide (vb e = -2))).countP M +
      (l.filter (fun e => decide (vb e = -3))).length := by
  intro l
  induction l with
  | nil => intro _; rfl
  | cons a l ih =>
    intro hl
    have ha := hl a (List.mem_cons_self a l)
    have hrest := ih (fun e he => hl e (List.mem_cons_of_mem a he))
    rcases ha.2.2 with h2 | h3 | h0
    · have hd2 : decide (vb a = -2) = true := decide_eq_true h2
      have hd3 : decide (vb a = -3) = false := decide_eq_false (by omega)
      simp only [List.filter_cons, hd2, hd3, eq_self_iff_true, Bool.false_eq_true,
        if_true, if_false, List.countP_cons, List.length_cons]
      omega
    · have hd2 : decide (vb a = -2) = false := decide_eq_false (by omega)
      have hd3 : decide (vb a = -3) = true := decide_eq_true h3
      have hMa : M a = true := ha.2.1 h3
      simp only [List.filter_cons, hd2, hd3, eq_self_iff_true, Bool.false_eq_true,
        if_true, if_false, List.countP_cons, List.length_cons, hMa]
      omega
    · have hd2 : decide (vb a = -2) = false := decide_eq_false (by omega)
      have hd3 : decide (vb a = -3) = false := decide_eq_false (by omega)
      have hMa : M a = false := ha.1 h0
      simp only [List.filter_cons, hd2, hd3, Bool.false_eq_true, if_false,
        List.countP_cons, hMa]
      omega

theorem neighborsBox_nodup (c : Cell) (h w : ℕ) : (neighborsBox c h w).Nodup := by
  unfold neighborsBox
  refine List.Nodup.filter _ ?_
  refine List.Nodup.map ?_ (by decide)
  intro a b hab
  obtain ⟨a1, a2⟩ := a
  obtain ⟨b1, b2⟩ := b
  simp only [Prod.mk.injEq] at hab ⊢
  omega

theorem addC_accurate {Phi : Set Assign} {h w : ℕ} {vb : Cell → ℤ}
    (hB : BoardOK Phi h w vb) {d : Cell} (hd : inb h w d = true)
    (hpos : 0 < vb d) :
    AccurateC Phi ((neighborsBox d h w).filter (fun e => decide (vb e = -2)))
      (vb d - (((neighborsBox d h w).filter (fun e => decide (vb e = -3))).length : ℤ)) := by
  intro M hM
  have hMd := (hB.1 M hM d hd).1 (le_of_lt hpos)
  have hside : ∀ e ∈ neighborsBox d h w,
      (0 ≤ vb e → M e = false) ∧ (vb e = -3 → M e = true) ∧
      (vb e = -2 ∨ vb e = -3 ∨ 0 ≤ vb e) := by
    intro e he
    have hein : inb h w e = true := mem_neighborsBox_inb he
    exact ⟨fun h0 => ((hB.1 M hM e hein).1 h0).1, (hB.1 M hM e hein).2, hB.2 e hein⟩
  have hpart := count_partition M vb (neighborsBox d h w) hside
  have hcnt := hMd.2
  omega

theorem addconstraints_inv {Phi : Set Assign} {s : CspState}
    (hB : BoardOK Phi s.height s.width s.vboard) (hI : StoreInv Phi s) :
    StoreInv Phi (Csp.addconstraints s) := by
  have main : ∀ L : List Cell, (∀ d ∈ L, inb s.height s.width d = true) →
      ∀ t : CspState, t.height = s.height → t.width = s.width → t.vboard = s.vboard →
      StoreInv Phi t →
      StoreInv Phi (L.foldl (fun t d =>
        if 0 < t.vboard d ∧ Csp.lookupC t.constraints d = none ∧ d ∉ t.deleted then
          { t with constraints := t.constraints ++
              [(d, ((neighborsBox d t.height t.width).filter
                      (fun e => decide (t.vboard e = -2)),
                    t.vboard d -
                      (((neighborsBox d t.height t.width).filter
                          (fun e => decide (t.vboard e = -3))).length : ℤ)))] }
        else t) t) := by
    intro L
    induction L with
    | nil => intro _ t _ _ _ hIt; exact hIt
    | cons d L ih =>
      intro hL t hh hw hv hIt
      rw [List.foldl_cons]
      by_cases hc : 0 < t.vboard d ∧ Csp.lookupC t.constraints d = none ∧ d ∉ t.deleted
      · rw [if_pos hc]
        refine ih (fun x hx => hL x (List.mem_cons_of_mem d hx)) _ hh hw hv ?_
        obtain ⟨hC, hF, hK, hN⟩ := hIt
        refine ⟨?_, hF, hK, hN⟩
        intro e he
        rcases List.mem_append.mp he with h | h
        · exact hC e h
        · rw [List.mem_singleton.mp h]
          have hdinb : inb s.height s.width d = true := hL d (List.mem_cons_self d L)
          have hpos : 0 < s.vboard d := hv ▸ hc.1
          constructor
          · dsimp only
            rw [hh, hw, hv]
            exact addC_accurate hB hdinb hpos
          · dsimp only
            exact (neighborsBox_nodup d t.height t.width).filter _
      · rw [if_neg hc]
        exact ih (fun x hx => hL x (List.mem_cons_of_mem d hx)) _ hh hw hv hIt
  exact main (gridList s.height s.width) (fun d hd => mem_gridList.mp hd) s rfl rfl rfl hI

theorem storeInv_mono {Phi Phi' : Set Assign} (hsub : Phi' ⊆ Phi) {s : CspState}
    (hI : StoreInv Phi s) : StoreInv Phi' s := by
  obtain ⟨hC, hF, hK, hN⟩ := hI
  exact ⟨fun e he => ⟨fun M hM => (hC e he).1 M (hsub hM), (hC e he).2⟩,
    fun c hc M hM => hF c hc M (hsub hM),
    fun c hc M hM => hK c hc M (hsub hM),
    fun c hc M hM => hN c hc M (hsub hM)⟩

theorem storeInv_of_reach {Phi : Set Assign} {s : CspState}
    (hr : CspReach Phi s) : StoreInv Phi s := by
  induction hr with
  | start Phi h w =>
    exact ⟨fun e he => absurd he (List.not_mem_nil e),
      fun c hc => absurd hc (List.not_mem_nil c),
      fun c hc => absurd hc (List.not_mem_nil c),
      fun c hc => absurd hc (List.not_mem_nil c)⟩
  | shrink hr hsub ih => exact storeInv_mono hsub ih
  | setBoard vb hr ih => exact ⟨ih.1, ih.2.1, ih.2.2.1, ih.2.2.2⟩
  | setFrees N hr hsafe ih =>
    exact ⟨ih.1, ih.2.1, ih.2.2.1, fun c hc M hM => hsafe M hM c hc⟩
  | addC hr hB ih => exact addconstraints_inv hB ih
  | prune hr ih => exact prune_inv ih
  | tflag fuel hr ih => exact trivialLoop_inv fuel false _ ih
  | tclick fuel hr ih => exact trivialLoop_inv fuel true _ ih
  | reduce fuel hr ih => exact constraintsreduction_inv fuel _ ih
  | popClick hr ih =>
    exact ⟨ih.1, ih.2.1,
      fun c hc => ih.2.2.1 c ((List.dropLast_sublist _).subset hc), ih.2.2.2⟩
  | popFlag hr ih =>
    exact ⟨ih.1, fun c hc => ih.2.1 c ((List.dropLast_sublist _).subset hc),
      ih.2.2.1, ih.2.2.2⟩

/-- C2: CSP soundness — in every reachable state of the constraint
store, every cell queued for flagging is a mine in every assignment
consistent with the observations so far, and every cell queued for
clicking is safe in every such assignment. -/
theorem csp_soundness (Phi : Set Assign) (s : CspState) (hr : CspReach Phi s) :
    (∀ c ∈ s.to_flag, EntMine Phi c) ∧ (∀ c ∈ s.to_click, EntSafe Phi c) :=
  ⟨(storeInv_of_reach hr).2.1, (storeInv_of_reach hr).2.2.1⟩

theorem boardOK0 : BoardOK Phi0 1 2 vb0 := by
  constructor
  · intro M hM d hd
    have hM0 : M = M0 := hM
    subst hM0
    obtain ⟨x, y⟩ := d
    have hb := of_decide_eq_true hd
    dsimp only at hb
    have hx : x = 0 := by omega
    have hy : y = 0 ∨ y = 1 := by omega
    subst hx
    rcases hy with hy | hy <;> subst hy
    · exact ⟨fun _ => by constructor <;> decide, by decide⟩
    · exact ⟨fun hle => absurd hle (by decide), by decide⟩
  · intro d hd
    obtain ⟨x, y⟩ := d
    have hb := of_decide_eq_true hd
    dsimp only at hb
    have hx : x = 0 := by omega
    have hy : y = 0 ∨ y = 1 := by omega
    subst hx
    rcases hy with hy | hy <;> subst hy
    · exact Or.inr (Or.inr (by decide))
    · exact Or.inl (by decide)

theorem c2reach : CspReach Phi0 c2s2 :=
  CspReach.tflag 3
    (CspReach.addC (CspReach.setBoard vb0 (CspReach.start Phi0 1 2)) boardOK0)

/-- C2 witness: on the 1×2 board `[[1, -2]]` the store queues `(0,1)`
for flagging, and soundness makes it a mine in the (unique) consistent
assignment. -/
theorem csp_soundness_witness :
    ((0 : ℤ), (1 : ℤ)) ∈ c2s2.to_flag ∧ M0 ((0 : ℤ), (1 : ℤ)) = true :=
  ⟨by decide,
    (csp_soundness Phi0 c2s2 c2reach).1 ((0 : ℤ), (1 : ℤ)) (by decide) M0 rfl⟩

end Mine311
